import Mathlib

/-!
Shallow embedding of the flight-alert bot's scheduler core (`bot.py`):
the hourly `checker_loop` that walks every chat's configuration, iterates the
configured date range, queries the price API per day, applies the
"cheaper than last notified" dedup filter, persists the state file and sends
the notification.  External collaborators (the HTTP price API and the chat
transport) are modelled as oracles; their observable interactions are recorded
as an event trace.
-/

/-- Default origin airport code (`DEFAULT_ORIGIN` in `bot.py`). -/
def DEFAULT_ORIGIN : String := "SVO"

/-- Default destination airport code (`DEFAULT_DEST` in `bot.py`). -/
def DEFAULT_DEST : String := "HKT"

/-- A calendar date, as Python's `datetime.date` (year, month, day).
Python's `date` type only ever holds valid proleptic-Gregorian dates; the
validity invariant is `validDate` below. -/
structure Date where
  y : Nat
  m : Nat
  d : Nat
deriving DecidableEq

/-- Gregorian leap-year test (as in Python's `calendar.isleap`). -/
def isLeap (y : Nat) : Bool :=
  y % 4 == 0 && (y % 100 != 0 || y % 400 == 0)

/-- Number of days of month `m` in year `y`. -/
def daysInMonth (y m : Nat) : Nat :=
  if m == 2 then (if isLeap y then 29 else 28)
  else if m == 4 || m == 6 || m == 9 || m == 11 then 30
  else 31

/-- The validity invariant of Python `datetime.date` values (year bounded below
by 1; the year-9999 upper bound is immaterial here and dropped). -/
def validDate (dt : Date) : Bool :=
  decide (1 ≤ dt.y) && decide (1 ≤ dt.m) && decide (dt.m ≤ 12) &&
    decide (1 ≤ dt.d) && decide (dt.d ≤ daysInMonth dt.y dt.m)

/-- Python date comparison `a <= b`: lexicographic on (year, month, day). -/
def dateLe (a b : Date) : Bool :=
  decide (a.y < b.y) ||
    (decide (a.y = b.y) &&
      (decide (a.m < b.m) || (decide (a.m = b.m) && decide (a.d ≤ b.d))))

/-- Python date comparison `a < b`: lexicographic on (year, month, day). -/
def dateLt (a b : Date) : Bool :=
  decide (a.y < b.y) ||
    (decide (a.y = b.y) &&
      (decide (a.m < b.m) || (decide (a.m = b.m) && decide (a.d < b.d))))

/-- A linear measure on dates, strictly monotone w.r.t. date order on valid
dates (since `31*m + d ≤ 31*12 + 31 = 403 < 404 = 372 + 31 + 1`). -/
def dateOrd (dt : Date) : Nat := 372 * dt.y + 31 * dt.m + dt.d

/-- `cur.fromordinal(cur.toordinal() + 1)` (bot.py line 81): the next calendar
day after `dt`. -/
def nextDay (dt : Date) : Date :=
  if dt.d < daysInMonth dt.y dt.m then ⟨dt.y, dt.m, dt.d + 1⟩
  else if dt.m < 12 then ⟨dt.y, dt.m + 1, 1⟩
  else ⟨dt.y + 1, 1, 1⟩

/-- Body of `date_range` (bot.py lines 77-81): `while cur <= d2: yield cur;
cur = cur.fromordinal(cur.toordinal() + 1)`.  Structured on a fuel argument so
that it computes; `dateOrd d2 + 1 - dateOrd d1` steps always suffice on valid
dates (established by the `date_range` lemmas below). -/
def dateRangeAux : Nat → Date → Date → List Date
  | 0, _, _ => []
  | n + 1, cur, d2 =>
    if dateLe cur d2 then cur :: dateRangeAux n (nextDay cur) d2 else []

/-- `date_range(d1, d2)`: all calendar days from `d1` to `d2` inclusive,
ascending. -/
def date_range (d1 d2 : Date) : List Date :=
  dateRangeAux (dateOrd d2 + 1 - dateOrd d1) d1 d2

/-- Split a character list at `'-'` separators (the `"%Y-%m-%d"` format's
literal dashes); `acc` holds the current field reversed. -/
def splitDashAux : List Char → List Char → List (List Char)
  | [], acc => [acc.reverse]
  | c :: rest, acc =>
    if c = '-' then acc.reverse :: splitDashAux rest []
    else splitDashAux rest (c :: acc)

/-- Parse a non-empty all-digit character list as a decimal number. -/
def parseNatDigits (cs : List Char) : Option Nat :=
  if cs ≠ [] ∧ cs.all Char.isDigit then
    some (cs.foldl (fun a c => a * 10 + (c.toNat - 48)) 0)
  else none

/-- `parse_ymd` (bot.py lines 74-75): `datetime.strptime(s, "%Y-%m-%d").date()`.
Strict `YYYY-MM-DD` with day-of-month validation; `none` models Python raising
`ValueError`. -/
def parse_ymd (s : String) : Option Date :=
  match splitDashAux s.data [] with
  | [ys, ms, ds] =>
    match parseNatDigits ys, parseNatDigits ms, parseNatDigits ds with
    | some yv, some mv, some dv =>
      if decide (ys.length ≤ 4) && decide (ms.length ≤ 2) && decide (ds.length ≤ 2) &&
          decide (1 ≤ yv) && decide (1 ≤ mv) && decide (mv ≤ 12) &&
          decide (1 ≤ dv) && decide (dv ≤ daysInMonth yv mv) then
        some ⟨yv, mv, dv⟩
      else none
    | _, _, _ => none
  | _ => none

/-- Left-pad the decimal rendering of `n` with zeros to width `w`. -/
def padZeros (w : Nat) (n : Nat) : String :=
  String.mk (List.replicate (w - (toString n).length) '0') ++ toString n

/-- `d.strftime("%Y-%m-%d")` (bot.py line 108). -/
def strftimeYmd (dt : Date) : String :=
  padZeros 4 dt.y ++ "-" ++ padZeros 2 dt.m ++ "-" ++ padZeros 2 dt.d

/-- Python `dict.get(key)` on a JSON object modelled as an association list. -/
def alistGet {β : Type} : List (String × β) → String → Option β
  | [], _ => none
  | (k, v) :: t, key => if k = key then some v else alistGet t key

/-- Python `dict[key] = val` on a JSON object modelled as an association
list: overwrite in place if present, else append. -/
def alistSet {β : Type} : List (String × β) → String → β → List (String × β)
  | [], key, val => [(key, val)]
  | (k, v) :: t, key, val =>
    if k = key then (k, val) :: t else (k, v) :: alistSet t key val

/-- Truthiness of an optional string field (`not x` in Python is true for a
missing key and for the empty string). -/
def truthyStr : Option String → Bool
  | none => false
  | some s => decide (s ≠ "")

/-- Truthiness of an optional integer field (`not x` in Python is true for a
missing key and for `0`). -/
def truthyInt : Option Int → Bool
  | none => false
  | some v => decide (v ≠ 0)

/-- One fare offer from the `prices_for_dates` API response (`data` array
element); `none` models an absent JSON key. -/
structure Offer where
  price : Option Int := none
  transfers : Option Int := none
  link : Option String := none
deriving DecidableEq

/-- One chat's configuration dict as stored in `state.json`; `none` models an
absent key (so `cfg.get(...)` defaults apply). -/
structure Cfg where
  origin : Option String := none
  dest : Option String := none
  date_from : Option String := none
  date_to : Option String := none
  max_price : Option Int := none
  direct : Option Bool := none
  one_way : Option Bool := none
  enabled : Option Bool := none
  last_sent : Option (List (String × Int)) := none
deriving DecidableEq

/-- The whole persisted store: chat id (as string) → configuration. -/
abbrev StateMap := List (String × Cfg)

/-- The query parameters `fetch_prices` sends to the price API (bot.py lines
52-65); the constant `token` credential is omitted.  `return_at = none` models
the key being absent from the request. -/
structure Request where
  origin : String
  destination : String
  departure_at : String
  one_way : String
  direct : String
  sorting : String
  limit : String
  currency : String
  market : String
  return_at : Option String
deriving DecidableEq

/-- The parameter dict built by `fetch_prices`, including the conditional
`return_at` key (`if return_at and not one_way`, bot.py lines 64-65). -/
def fetch_prices_params (origin dest departure_at : String) (return_at : Option String)
    (direct one_way : Bool) (limit : Nat) : Request :=
  { origin := origin
    destination := dest
    departure_at := departure_at
    one_way := if one_way then "true" else "false"
    direct := if direct then "true" else "false"
    sorting := "price"
    limit := toString limit
    currency := "RUB"
    market := "ru"
    return_at := if truthyStr return_at && !one_way then return_at else none }

/-- Observable effects of one scheduler cycle: price-API calls (tagged with the
chat being processed), whole-store writes (`save_state`), and notification
sends (`bot.send_message`, carrying the fields the message is built from). -/
inductive Event where
  | fetch (chat : String) (req : Request)
  | save (st : StateMap)
  | send (chat origin dest depart : String) (price : Int)
      (transfers : Option Int) (link : String)
deriving DecidableEq

/-- `x.get("price", 10**18)`: the sort key used by `min` and the value the
notification price is computed from (bot.py lines 115-116). -/
def priceKey (o : Offer) : Int := o.price.getD (10 ^ 18)

/-- Python's `min(xs, key=f)` as a left fold: the champion is replaced only on
a strictly smaller key, so the first minimum in source order wins. -/
def pyMinBy {α : Type} (f : α → Int) : α → List α → α
  | b, [] => b
  | b, x :: xs => pyMinBy f (if f x < f b then x else b) xs

/-- `aviasales_deeplink` (bot.py lines 38-48). -/
def aviasales_deeplink (origin dest depart : String) (ret : Option String) : String :=
  if truthyStr ret then
    "https://search.aviasales.com/flights/?origin_iata=" ++ origin ++
      "&destination_iata=" ++ dest ++ "&depart_date=" ++ depart ++
      "&return_date=" ++ ret.getD "" ++
      "&adults=1&children=0&infants=0&trip_class=0&one_way=false&locale=ru"
  else
    "https://search.aviasales.com/flights/?origin_iata=" ++ origin ++
      "&destination_iata=" ++ dest ++ "&depart_date=" ++ depart ++
      "&adults=1&children=0&infants=0&trip_class=0&one_way=true&locale=ru"

/-- The notification link (bot.py line 130): the offer's own `link`, stripped
of leading slashes and prefixed to an absolute URL, when present and non-empty;
else the synthesized deeplink. -/
def linkFor (best : Offer) (origin dest depart : String) : String :=
  match best.link with
  | some l =>
    if !l.isEmpty then "https://search.aviasales.com" ++ l.dropWhile (· == '/')
    else aviasales_deeplink origin dest depart none
  | none => aviasales_deeplink origin dest depart none

/-- Outcome of one or several day-loop iterations for one subscriber:
accumulated events, the subscriber's `last_sent` dict, the threaded in-memory
`state`, and whether an exception aborted the remaining work. -/
structure RunOut where
  events : List Event
  hist : List (String × Int)
  st : StateMap
  aborted : Bool
deriving DecidableEq

/-- One iteration of the day loop (bot.py lines 107-144) for one subscriber.
`ps` is the price API oracle: `.error` models the request raising (timeout or
transport error), `.ok` the offers returned (empty when the upstream reports
failure or no result, per `fetch_prices`).  `sendOk chat = false` models
`bot.send_message` raising — after the store write has already happened. -/
def processDay (ps : String → Request → Except Unit (List Offer)) (sendOk : String → Bool)
    (chat origin dest : String) (direct : Bool) (maxPrice : Int) (cfg : Cfg)
    (day : Date) (hist : List (String × Int)) (st : StateMap) : RunOut :=
  let depart := strftimeYmd day
  let req := fetch_prices_params origin dest depart none direct true 100
  match ps chat req with
  | .error _ => ⟨[.fetch chat req], hist, st, true⟩
  | .ok [] => ⟨[.fetch chat req], hist, st, false⟩
  | .ok (o :: os) =>
    let best := pyMinBy priceKey o os
    let price := priceKey best
    if price ≤ maxPrice then
      let key := origin ++ "-" ++ dest ++ "-" ++ depart
      let shouldSend :=
        match alistGet hist key with
        | none => true
        | some prev => decide (price < prev)
      if shouldSend then
        let hist2 := alistSet hist key price
        let cfg2 := { cfg with last_sent := some hist2 }
        let st2 := alistSet st chat cfg2
        ⟨[.fetch chat req, .save st2,
            .send chat origin dest depart price best.transfers (linkFor best origin dest depart)],
          hist2, st2, !sendOk chat⟩
      else ⟨[.fetch chat req], hist, st, false⟩
    else ⟨[.fetch chat req], hist, st, false⟩

/-- The day loop (bot.py line 107): iterate `processDay` over the days, stopping
early when an iteration raised. -/
def processDays (ps : String → Request → Except Unit (List Offer)) (sendOk : String → Bool)
    (chat origin dest : String) (direct : Bool) (maxPrice : Int) (cfg : Cfg) :
    List Date → List (String × Int) → StateMap → RunOut
  | [], hist, st => ⟨[], hist, st, false⟩
  | day :: rest, hist, st =>
    let r := processDay ps sendOk chat origin dest direct maxPrice cfg day hist st
    if r.aborted then ⟨r.events, r.hist, r.st, true⟩
    else
      let r2 := processDays ps sendOk chat origin dest direct maxPrice cfg rest r.hist r.st
      ⟨r.events ++ r2.events, r2.hist, r2.st, r2.aborted⟩

/-- The body of the per-chat loop (bot.py lines 89-146) for one subscriber
entry, inside its `try`: field reads with defaults, the eligibility guard, date
parsing (a parse failure raises and is caught, leaving no effect), then the day
loop.  Returns the events and the updated in-memory state; an exception inside
keeps all effects already performed. -/
def processSubscriber (ps : String → Request → Except Unit (List Offer)) (sendOk : String → Bool)
    (chat : String) (cfg : Cfg) (st : StateMap) : List Event × StateMap :=
  let origin := cfg.origin.getD DEFAULT_ORIGIN
  let dest := cfg.dest.getD DEFAULT_DEST
  if !(cfg.enabled.getD false) || !truthyStr cfg.date_from || !truthyStr cfg.date_to ||
      !truthyInt cfg.max_price then
    ([], st)
  else
    match parse_ymd (cfg.date_from.getD ""), parse_ymd (cfg.date_to.getD "") with
    | some df, some dt2 =>
      let r := processDays ps sendOk chat origin dest (cfg.direct.getD false)
        (cfg.max_price.getD 0) cfg (date_range df dt2) (cfg.last_sent.getD []) st
      (r.events, r.st)
    | _, _ => ([], st)

/-- The per-chat loop (bot.py line 88): fold over the entries of the state
loaded at cycle start, threading the in-memory state dict. -/
def runCycleAux (ps : String → Request → Except Unit (List Offer)) (sendOk : String → Bool) :
    List (String × Cfg) → StateMap → List Event × StateMap
  | [], st => ([], st)
  | (chat, cfg) :: rest, st =>
    let r := processSubscriber ps sendOk chat cfg st
    let r2 := runCycleAux ps sendOk rest r.2
    (r.1 ++ r2.1, r2.2)

/-- One full pass of `checker_loop` (bot.py lines 85-150) over the state
snapshot loaded by `load_state()` at cycle start. -/
def runCycle (ps : String → Request → Except Unit (List Offer)) (sendOk : String → Bool)
    (snapshot : StateMap) : List Event × StateMap :=
  runCycleAux ps sendOk snapshot snapshot

/-- The dedup decision as realized at bot.py lines 119-126: notify iff the
day's price is at or below the limit and either never notified for this
route-date key or strictly cheaper than last notified; on notify the history
records the new price. -/
def evaluate (key : String) (observedPrice maxPrice : Int)
    (history : List (String × Int)) : Bool × List (String × Int) :=
  if observedPrice ≤ maxPrice then
    match alistGet history key with
    | none => (true, alistSet history key observedPrice)
    | some prev =>
      if observedPrice < prev then (true, alistSet history key observedPrice)
      else (false, history)
  else (false, history)

/-- Fold `evaluate` over a sequence of observed prices for a fixed key,
collecting the prices for which a notification fired, in order. -/
def evalSeq (key : String) (maxPrice : Int) :
    List Int → List (String × Int) → List Int × List (String × Int)
  | [], h => ([], h)
  | p :: rest, h =>
    let r := evaluate key p maxPrice h
    let r2 := evalSeq key maxPrice rest r.2
    (if r.1 then p :: r2.1 else r2.1, r2.2)

/-- The spec's §3 eligibility invariant, stated in the spec's words: enabled,
all of `dateFrom`/`dateTo`/`maxPrice` set, and `dateFrom ≤ dateTo`. -/
def eligibleSpec (cfg : Cfg) : Bool :=
  cfg.enabled.getD false && cfg.date_from.isSome && cfg.date_to.isSome &&
    cfg.max_price.isSome &&
    (match cfg.date_from.bind parse_ymd, cfg.date_to.bind parse_ymd with
     | some d1, some d2 => dateLe d1 d2
     | _, _ => false)

/-- Well-formedness of a stored configuration, as the data model guarantees it
(`/setdates` only stores strings that parse as dates; `/setprice` only stores
positive integers). -/
def WellFormedCfg (cfg : Cfg) : Prop :=
  (∀ s, cfg.date_from = some s → ∃ d, parse_ymd s = some d) ∧
  (∀ s, cfg.date_to = some s → ∃ d, parse_ymd s = some d) ∧
  (∀ p, cfg.max_price = some p → 0 < p)

/-- Is the event a notification send? -/
def isSend : Event → Bool
  | .send _ _ _ _ _ _ _ => true
  | _ => false

/-- Is the event a store write? -/
def isSave : Event → Bool
  | .save _ => true
  | _ => false

/-- Is the event a price-API call? -/
def isFetch : Event → Bool
  | .fetch _ _ => true
  | _ => false

/-- The requests of the trace's price-API calls, in order. -/
def fetchReqs (es : List Event) : List Request :=
  es.filterMap fun e =>
    match e with
    | .fetch _ r => some r
    | _ => none

/-- The chat an event belongs to (`none` for store writes). -/
def eventChat : Event → Option String
  | .fetch c _ => some c
  | .send c _ _ _ _ _ _ => some c
  | .save _ => none

/-- The notification sends of the trace that belong to chat `b`. -/
def sendsFor (b : String) (es : List Event) : List Event :=
  es.filter fun e => isSend e && (eventChat e == some b)

/-- The price-API calls of the trace that belong to chat `b`. -/
def fetchesFor (b : String) (es : List Event) : List Event :=
  es.filter fun e => isFetch e && (eventChat e == some b)

/-- The payloads of the trace's store writes, in order. -/
def savePayloads (es : List Event) : List StateMap :=
  es.filterMap fun e =>
    match e with
    | .save stt => some stt
    | _ => none

/-! ### Calendar toolkit -/

theorem daysInMonth_bounds (y m : Nat) : 1 ≤ daysInMonth y m ∧ daysInMonth y m ≤ 31 := by
  unfold daysInMonth
  split
  · split <;> omega
  · split <;> omega

theorem dateLe_iff_ord {a b : Date} (ha : validDate a = true) (hb : validDate b = true) :
    dateLe a b = true ↔ dateOrd a ≤ dateOrd b := by
  obtain ⟨ya, ma, da⟩ := a
  obtain ⟨yb, mb, db⟩ := b
  have h1 := daysInMonth_bounds ya ma
  have h2 := daysInMonth_bounds yb mb
  simp only [validDate, Bool.and_eq_true, decide_eq_true_eq] at ha hb
  simp only [dateLe, dateOrd, Bool.or_eq_true, Bool.and_eq_true, decide_eq_true_eq]
  omega

theorem dateLt_iff_ord {a b : Date} (ha : validDate a = true) (hb : validDate b = true) :
    dateLt a b = true ↔ dateOrd a < dateOrd b := by
  obtain ⟨ya, ma, da⟩ := a
  obtain ⟨yb, mb, db⟩ := b
  have h1 := daysInMonth_bounds ya ma
  have h2 := daysInMonth_bounds yb mb
  simp only [validDate, Bool.and_eq_true, decide_eq_true_eq] at ha hb
  simp only [dateLt, dateOrd, Bool.or_eq_true, Bool.and_eq_true, decide_eq_true_eq]
  omega

theorem validDate_nextDay {dt : Date} (h : validDate dt = true) :
    validDate (nextDay dt) = true := by
  obtain ⟨y, m, d⟩ := dt
  have h1 := daysInMonth_bounds y m
  have h2 := daysInMonth_bounds y (m + 1)
  have h3 := daysInMonth_bounds (y + 1) 1
  simp only [validDate, Bool.and_eq_true, decide_eq_true_eq] at h
  simp only [nextDay]
  split
  · simp only [validDate, Bool.and_eq_true, decide_eq_true_eq]; omega
  · split
    · simp only [validDate, Bool.and_eq_true, decide_eq_true_eq]; omega
    · simp only [validDate, Bool.and_eq_true, decide_eq_true_eq]; omega

theorem dateOrd_lt_nextDay {dt : Date} (h : validDate dt = true) :
    dateOrd dt < dateOrd (nextDay dt) := by
  obtain ⟨y, m, d⟩ := dt
  have h1 := daysInMonth_bounds y m
  simp only [validDate, Bool.and_eq_true, decide_eq_true_eq] at h
  simp only [nextDay]
  split
  · simp only [dateOrd]; omega
  · split
    · simp only [dateOrd]; omega
    · simp only [dateOrd]; omega

theorem dateLe_antisymm {a b : Date} (hab : dateLe a b = true) (hba : dateLe b a = true) :
    a = b := by
  obtain ⟨ya, ma, da⟩ := a
  obtain ⟨yb, mb, db⟩ := b
  simp only [dateLe, Bool.or_eq_true, Bool.and_eq_true, decide_eq_true_eq] at hab hba
  have : ya = yb ∧ ma = mb ∧ da = db := by omega
  obtain ⟨rfl, rfl, rfl⟩ := this
  rfl

theorem dateLt_of_le_of_ne {a b : Date} (hab : dateLe a b = true) (hne : a ≠ b) :
    dateLt a b = true := by
  obtain ⟨ya, ma, da⟩ := a
  obtain ⟨yb, mb, db⟩ := b
  simp only [ne_eq, Date.mk.injEq, not_and] at hne
  simp only [dateLe, Bool.or_eq_true, Bool.and_eq_true, decide_eq_true_eq] at hab
  simp only [dateLt, Bool.or_eq_true, Bool.and_eq_true, decide_eq_true_eq]
  by_cases hy : ya = yb
  · by_cases hm : ma = mb
    · have : da ≠ db := fun hd => hne hy hm hd
      omega
    · omega
  · omega

theorem nextDay_le_of_lt {c x : Date} (hc : validDate c = true) (hx : validDate x = true)
    (hlt : dateLt c x = true) : dateLe (nextDay c) x = true := by
  obtain ⟨cy, cm, cd⟩ := c
  obtain ⟨xy, xm, xd⟩ := x
  have hbc := daysInMonth_bounds cy cm
  have hbx := daysInMonth_bounds xy xm
  simp only [validDate, Bool.and_eq_true, decide_eq_true_eq] at hc hx
  simp only [dateLt, Bool.or_eq_true, Bool.and_eq_true, decide_eq_true_eq] at hlt
  rcases hlt with h | ⟨hy, h2⟩
  · simp only [nextDay]
    split
    · simp only [dateLe, Bool.or_eq_true, Bool.and_eq_true, decide_eq_true_eq,
          lt_self_iff_false, false_or, true_and, and_true, eq_self_iff_true]; omega
    · split
      · simp only [dateLe, Bool.or_eq_true, Bool.and_eq_true, decide_eq_true_eq,
          lt_self_iff_false, false_or, true_and, and_true, eq_self_iff_true]; omega
      · simp only [dateLe, Bool.or_eq_true, Bool.and_eq_true, decide_eq_true_eq,
          lt_self_iff_false, false_or, true_and, and_true, eq_self_iff_true]; omega
  · subst hy
    rcases h2 with h | ⟨hm, hd⟩
    · simp only [nextDay]
      split
      · simp only [dateLe, Bool.or_eq_true, Bool.and_eq_true, decide_eq_true_eq,
          lt_self_iff_false, false_or, true_and, and_true, eq_self_iff_true]; omega
      · split
        · simp only [dateLe, Bool.or_eq_true, Bool.and_eq_true, decide_eq_true_eq,
          lt_self_iff_false, false_or, true_and, and_true, eq_self_iff_true]; omega
        · simp only [dateLe, Bool.or_eq_true, Bool.and_eq_true, decide_eq_true_eq,
          lt_self_iff_false, false_or, true_and, and_true, eq_self_iff_true]; omega
    · subst hm
      simp only [nextDay]
      split
      · simp only [dateLe, Bool.or_eq_true, Bool.and_eq_true, decide_eq_true_eq,
          lt_self_iff_false, false_or, true_and, and_true, eq_self_iff_true]; omega
      · split
        · simp only [dateLe, Bool.or_eq_true, Bool.and_eq_true, decide_eq_true_eq,
          lt_self_iff_false, false_or, true_and, and_true, eq_self_iff_true]; omega
        · simp only [dateLe, Bool.or_eq_true, Bool.and_eq_true, decide_eq_true_eq,
          lt_self_iff_false, false_or, true_and, and_true, eq_self_iff_true]; omega

theorem dateRangeAux_mem {n : Nat} {c d2 x : Date}
    (hc : validDate c = true) (hd2 : validDate d2 = true)
    (hn : dateOrd d2 + 1 - dateOrd c ≤ n) :
    x ∈ dateRangeAux n c d2 ↔
      (validDate x = true ∧ dateLe c x = true ∧ dateLe x d2 = true) := by
  induction n generalizing c with
  | zero =>
    simp only [dateRangeAux, List.not_mem_nil, false_iff, not_and]
    intro hx hcx hxd
    rw [dateLe_iff_ord hc hx] at hcx
    rw [dateLe_iff_ord hx hd2] at hxd
    omega
  | succ n ih =>
    by_cases hg : dateLe c d2 = true
    · have hnc := validDate_nextDay hc
      have hord := dateOrd_lt_nextDay hc
      have hcd2 : dateOrd c ≤ dateOrd d2 := (dateLe_iff_ord hc hd2).1 hg
      have hn2 : dateOrd d2 + 1 - dateOrd (nextDay c) ≤ n := by omega
      simp only [dateRangeAux, hg, if_true, List.mem_cons]
      rw [ih hnc hn2]
      constructor
      · rintro (rfl | ⟨hx, hcx, hxd⟩)
        · exact ⟨hc, (dateLe_iff_ord hc hc).2 (le_refl _), hg⟩
        · refine ⟨hx, ?_, hxd⟩
          rw [dateLe_iff_ord hnc hx] at hcx
          rw [dateLe_iff_ord hc hx]
          omega
      · rintro ⟨hx, hcx, hxd⟩
        by_cases hxc : x = c
        · exact Or.inl hxc
        · refine Or.inr ⟨hx, ?_, hxd⟩
          have hne : c ≠ x := fun he => hxc he.symm
          exact nextDay_le_of_lt hc hx (dateLt_of_le_of_ne hcx hne)
    · have hg2 : dateLe c d2 = false := by
        cases h : dateLe c d2
        · rfl
        · exact absurd h hg
      simp only [dateRangeAux, hg2, Bool.false_eq_true, if_false, List.not_mem_nil,
        false_iff, not_and]
      intro hx hcx hxd
      rw [dateLe_iff_ord hc hx] at hcx
      rw [dateLe_iff_ord hx hd2] at hxd
      have : dateOrd c ≤ dateOrd d2 := le_trans hcx hxd
      rw [(dateLe_iff_ord hc hd2)] at hg
      exact hg this

/-- Membership characterization: `date_range d1 d2` holds exactly the valid
calendar days `x` with `d1 ≤ x ≤ d2`. -/
theorem date_range_mem {d1 d2 x : Date}
    (h1 : validDate d1 = true) (h2 : validDate d2 = true) :
    x ∈ date_range d1 d2 ↔
      (validDate x = true ∧ dateLe d1 x = true ∧ dateLe x d2 = true) :=
  dateRangeAux_mem h1 h2 (le_refl _)

theorem dateRangeAux_head {n : Nat} {c d2 y : Date}
    (h : (dateRangeAux n c d2).head? = some y) : y = c := by
  cases n with
  | zero => simp [dateRangeAux] at h
  | succ n =>
    unfold dateRangeAux at h
    by_cases hg : dateLe c d2 = true
    · simp [hg] at h
      exact h.symm
    · have hg2 : dateLe c d2 = false := by
        cases hh : dateLe c d2
        · rfl
        · exact absurd hh hg
      simp [hg2] at h

theorem dateRangeAux_chain {n : Nat} {c d2 : Date} (hc : validDate c = true) :
    List.Chain' (fun a b => dateLt a b = true) (dateRangeAux n c d2) := by
  induction n generalizing c with
  | zero => simp [dateRangeAux]
  | succ n ih =>
    unfold dateRangeAux
    by_cases hg : dateLe c d2 = true
    · simp only [hg, if_true]
      rw [List.chain'_cons']
      refine ⟨?_, ih (validDate_nextDay hc)⟩
      intro y hy
      have := dateRangeAux_head hy
      subst this
      rw [dateLt_iff_ord hc (validDate_nextDay hc)]
      exact dateOrd_lt_nextDay hc
    · have hg2 : dateLe c d2 = false := by
        cases hh : dateLe c d2
        · rfl
        · exact absurd hh hg
      simp [hg2]

/-- The days are produced in strictly ascending calendar order. -/
theorem date_range_chain {d1 d2 : Date} (h1 : validDate d1 = true) :
    List.Chain' (fun a b => dateLt a b = true) (date_range d1 d2) :=
  dateRangeAux_chain h1

/-- `date_range` is empty when `d1 > d2` (the `while` guard fails at once). -/
theorem date_range_eq_nil {d1 d2 : Date} (h : dateLe d1 d2 = false) :
    date_range d1 d2 = [] := by
  unfold date_range
  cases hn : dateOrd d2 + 1 - dateOrd d1 with
  | zero => rfl
  | succ n => simp [dateRangeAux, h]

/-- `date_range` starts with `d1` when `d1 ≤ d2`. -/
theorem date_range_cons {d1 d2 : Date} (h1 : validDate d1 = true)
    (h2 : validDate d2 = true) (h : dateLe d1 d2 = true) :
    ∃ t, date_range d1 d2 = d1 :: t := by
  unfold date_range
  have hord : dateOrd d1 ≤ dateOrd d2 := (dateLe_iff_ord h1 h2).1 h
  obtain ⟨n, hn⟩ := Nat.exists_eq_succ_of_ne_zero (n := dateOrd d2 + 1 - dateOrd d1) (by omega)
  rw [hn]
  simp [dateRangeAux, h]

/-! ### Parsing and association-list toolkit -/

theorem parse_ymd_valid {s : String} {dt : Date} (h : parse_ymd s = some dt) :
    validDate dt = true := by
  unfold parse_ymd at h
  split at h
  · split at h
    · split at h
      · rename_i heq
        simp only [Bool.and_eq_true, decide_eq_true_eq] at heq
        injection h with h2
        subst h2
        simp only [validDate, Bool.and_eq_true, decide_eq_true_eq]
        omega
      · exact absurd h (by simp)
    · exact absurd h (by simp)
  · exact absurd h (by simp)

theorem parse_ymd_empty : parse_ymd "" = none := rfl

theorem truthyStr_of_parse {s : String} {dt : Date} (h : parse_ymd s = some dt) :
    truthyStr (some s) = true := by
  simp only [truthyStr, decide_eq_true_eq, ne_eq]
  intro he
  subst he
  rw [parse_ymd_empty] at h
  exact Option.noConfusion h

theorem alistGet_set_self {β : Type} (l : List (String × β)) (k : String) (v : β) :
    alistGet (alistSet l k v) k = some v := by
  induction l with
  | nil => simp [alistSet, alistGet]
  | cons hd t ih =>
    obtain ⟨k2, v2⟩ := hd
    by_cases h : k2 = k
    · simp [alistSet, alistGet, h]
    · simp [alistSet, alistGet, h, ih]

theorem alistGet_set_ne {β : Type} (l : List (String × β)) (k k2 : String) (v : β)
    (h : k2 ≠ k) : alistGet (alistSet l k v) k2 = alistGet l k2 := by
  have h2 : ¬(k = k2) := fun he => h he.symm
  induction l with
  | nil => simp [alistSet, alistGet, h2]
  | cons hd t ih =>
    obtain ⟨k3, v3⟩ := hd
    by_cases h3 : k3 = k
    · subst h3
      simp [alistSet, alistGet, h2]
    · by_cases h4 : k3 = k2
      · subst h4
        simp [alistSet, alistGet, h3]
      · simp [alistSet, alistGet, h3, h4, ih]

/-! ### Structure of one day iteration -/

/-- The request the scheduler issues for one day (bot.py line 109, expanded
through `fetch_prices`): `return_at = None` and `one_way=True` are hardcoded at
the call site. -/
def dayReq (origin dest : String) (direct : Bool) (day : Date) : Request :=
  fetch_prices_params origin dest (strftimeYmd day) none direct true 100

/-- The route-date key `f"{origin}-{dest}-{depart}"` (bot.py line 120). -/
def rdKey (origin dest : String) (day : Date) : String :=
  origin ++ "-" ++ dest ++ "-" ++ strftimeYmd day

/-- Exhaustive case analysis of one day iteration: either the day has no
side effect (its trace is the lone API call, history and state untouched), or
it notifies: the trace is API call, store write, send — with the written state,
history and send fields all determined by the first-minimum offer. -/
theorem processDay_cases (ps : String → Request → Except Unit (List Offer))
    (sendOk : String → Bool) (chat origin dest : String) (direct : Bool)
    (maxPrice : Int) (cfg : Cfg) (day : Date) (hist : List (String × Int))
    (st : StateMap) :
    (∃ ab, (ab = true → ps chat (dayReq origin dest direct day) = Except.error ()) ∧
      processDay ps sendOk chat origin dest direct maxPrice cfg day hist st =
        ⟨[Event.fetch chat (dayReq origin dest direct day)], hist, st, ab⟩) ∨
    (∃ o os,
      ps chat (dayReq origin dest direct day) = Except.ok (o :: os) ∧
      priceKey (pyMinBy priceKey o os) ≤ maxPrice ∧
      processDay ps sendOk chat origin dest direct maxPrice cfg day hist st =
        ⟨[Event.fetch chat (dayReq origin dest direct day),
          Event.save (alistSet st chat
            { cfg with last_sent := some (alistSet hist (rdKey origin dest day)
                (priceKey (pyMinBy priceKey o os))) }),
          Event.send chat origin dest (strftimeYmd day)
            (priceKey (pyMinBy priceKey o os)) (pyMinBy priceKey o os).transfers
            (linkFor (pyMinBy priceKey o os) origin dest (strftimeYmd day))],
          alistSet hist (rdKey origin dest day) (priceKey (pyMinBy priceKey o os)),
          alistSet st chat
            { cfg with last_sent := some (alistSet hist (rdKey origin dest day)
                (priceKey (pyMinBy priceKey o os))) },
          !sendOk chat⟩) := by
  simp only [processDay, dayReq, rdKey]
  cases hps : ps chat (fetch_prices_params origin dest (strftimeYmd day) none direct true 100) with
  | error e =>
    cases e
    exact Or.inl ⟨true, fun _ => rfl, rfl⟩
  | ok offers =>
    cases offers with
    | nil => exact Or.inl ⟨false, fun hf => Bool.noConfusion hf, rfl⟩
    | cons o os =>
      by_cases hple : priceKey (pyMinBy priceKey o os) ≤ maxPrice
      · cases hget : alistGet hist (origin ++ "-" ++ dest ++ "-" ++ strftimeYmd day) with
        | none =>
          refine Or.inr ⟨o, os, rfl, hple, ?_⟩
          simp [hple, hget]
        | some prev =>
          by_cases hlt : priceKey (pyMinBy priceKey o os) < prev
          · refine Or.inr ⟨o, os, rfl, hple, ?_⟩
            simp [hple, hget, hlt]
          · refine Or.inl ⟨false, fun hf => Bool.noConfusion hf, ?_⟩
            simp [hple, hget, hlt]
      · refine Or.inl ⟨false, fun hf => Bool.noConfusion hf, ?_⟩
        simp [hple]

/-! ### Trace-ordering predicates -/

/-- Every notification send in the trace is immediately preceded by a store
write: no send opens the trace, and the position before any send holds a save. -/
def SavedBeforeSent (es : List Event) : Prop :=
  (∀ c o d dp p t l, es[0]? ≠ some (Event.send c o d dp p t l)) ∧
  (∀ i c o d dp p t l, es[i + 1]? = some (Event.send c o d dp p t l) →
    ∃ stt, es[i]? = some (Event.save stt))

/-- Every store write in the trace is immediately followed by a notification
send: the store is only written as part of emitting a notification. -/
def SaveImmediatelySent (es : List Event) : Prop :=
  ∀ i stt, es[i]? = some (Event.save stt) →
    ∃ c o d dp p t l, es[i + 1]? = some (Event.send c o d dp p t l)

theorem savedBeforeSent_nil : SavedBeforeSent [] := by
  constructor
  · intro c o d dp p t l
    simp
  · intro i c o d dp p t l h
    simp at h

theorem saveImmediatelySent_nil : SaveImmediatelySent [] := by
  intro i stt h
  simp at h

theorem savedBeforeSent_cons_fetch {ch : String} {r : Request} {rest : List Event}
    (h : SavedBeforeSent rest) : SavedBeforeSent (Event.fetch ch r :: rest) := by
  obtain ⟨h0, h1⟩ := h
  constructor
  · intro c o d dp p t l
    simp
  · intro i c o d dp p t l hi
    cases i with
    | zero =>
      simp only [List.getElem?_cons_succ] at hi
      exact absurd hi (h0 c o d dp p t l)
    | succ j =>
      simp only [List.getElem?_cons_succ] at hi ⊢
      exact h1 j c o d dp p t l hi

theorem saveImmediatelySent_cons_fetch {ch : String} {r : Request} {rest : List Event}
    (h : SaveImmediatelySent rest) : SaveImmediatelySent (Event.fetch ch r :: rest) := by
  intro i stt hi
  cases i with
  | zero => simp at hi
  | succ j =>
    simp only [List.getElem?_cons_succ] at hi ⊢
    exact h j stt hi

theorem savedBeforeSent_cons_triple {ch : String} {r : Request} {stt : StateMap}
    {c2 o2 d2 dp2 : String} {p2 : Int} {t2 : Option Int} {l2 : String}
    {rest : List Event} (h : SavedBeforeSent rest) :
    SavedBeforeSent (Event.fetch ch r :: Event.save stt ::
      Event.send c2 o2 d2 dp2 p2 t2 l2 :: rest) := by
  obtain ⟨h0, h1⟩ := h
  constructor
  · intro c o d dp p t l
    simp
  · intro i c o d dp p t l hi
    match i with
    | 0 => simp at hi
    | 1 => exact ⟨stt, by simp⟩
    | 2 =>
      simp only [List.getElem?_cons_succ] at hi
      exact absurd hi (h0 c o d dp p t l)
    | j + 3 =>
      simp only [List.getElem?_cons_succ] at hi ⊢
      exact h1 j c o d dp p t l hi

theorem saveImmediatelySent_cons_triple {ch : String} {r : Request} {stt : StateMap}
    {c2 o2 d2 dp2 : String} {p2 : Int} {t2 : Option Int} {l2 : String}
    {rest : List Event} (h : SaveImmediatelySent rest) :
    SaveImmediatelySent (Event.fetch ch r :: Event.save stt ::
      Event.send c2 o2 d2 dp2 p2 t2 l2 :: rest) := by
  intro i stx hi
  match i with
  | 0 => simp at hi
  | 1 => exact ⟨c2, o2, d2, dp2, p2, t2, l2, by simp⟩
  | 2 => simp at hi
  | j + 3 =>
    simp only [List.getElem?_cons_succ] at hi ⊢
    exact h j stx hi

theorem savedBeforeSent_append {a b : List Event}
    (ha : SavedBeforeSent a) (hb : SavedBeforeSent b) : SavedBeforeSent (a ++ b) := by
  constructor
  · intro c o d dp p t l hc
    cases a with
    | nil => exact hb.1 c o d dp p t l (by simpa using hc)
    | cons e rest => exact ha.1 c o d dp p t l (by simpa using hc)
  · intro i c o d dp p t l hi
    by_cases hlt : i + 1 < a.length
    · rw [List.getElem?_append_left hlt] at hi
      obtain ⟨stt, hstt⟩ := ha.2 i c o d dp p t l hi
      refine ⟨stt, ?_⟩
      rw [List.getElem?_append_left (by omega)]
      exact hstt
    · by_cases heq : i + 1 = a.length
      · rw [List.getElem?_append_right (by omega)] at hi
        have h0 : i + 1 - a.length = 0 := by omega
        rw [h0] at hi
        exact absurd hi (hb.1 c o d dp p t l)
      · have hge : a.length ≤ i := by omega
        rw [List.getElem?_append_right (by omega)] at hi
        obtain ⟨j, hj⟩ : ∃ j, i + 1 - a.length = j + 1 := ⟨i - a.length, by omega⟩
        rw [hj] at hi
        obtain ⟨stt, hstt⟩ := hb.2 j c o d dp p t l hi
        refine ⟨stt, ?_⟩
        rw [List.getElem?_append_right hge]
        have : i - a.length = j := by omega
        rw [this]
        exact hstt

theorem saveImmediatelySent_append {a b : List Event}
    (ha : SaveImmediatelySent a) (hb : SaveImmediatelySent b) :
    SaveImmediatelySent (a ++ b) := by
  intro i stt hi
  by_cases hlt : i < a.length
  · rw [List.getElem?_append_left hlt] at hi
    obtain ⟨c, o, d, dp, p, t, l, hsend⟩ := ha i stt hi
    have hlen : i + 1 < a.length := by
      by_contra hc
      rw [List.getElem?_eq_none (by omega)] at hsend
      exact Option.noConfusion hsend
    refine ⟨c, o, d, dp, p, t, l, ?_⟩
    rw [List.getElem?_append_left hlen]
    exact hsend
  · have hge : a.length ≤ i := by omega
    rw [List.getElem?_append_right hge] at hi
    obtain ⟨c, o, d, dp, p, t, l, hsend⟩ := hb (i - a.length) stt hi
    refine ⟨c, o, d, dp, p, t, l, ?_⟩
    rw [List.getElem?_append_right (by omega)]
    have : i + 1 - a.length = i - a.length + 1 := by omega
    rw [this]
    exact hsend

/-! ### Day-loop invariants -/

theorem processDays_savedBeforeSent (ps : String → Request → Except Unit (List Offer))
    (sendOk : String → Bool) (chat origin dest : String) (direct : Bool)
    (maxPrice : Int) (cfg : Cfg) :
    ∀ (days : List Date) (hist : List (String × Int)) (st : StateMap),
      SavedBeforeSent
        (processDays ps sendOk chat origin dest direct maxPrice cfg days hist st).events := by
  intro days
  induction days with
  | nil =>
    intro hist st
    simpa [processDays] using savedBeforeSent_nil
  | cons day rest ih =>
    intro hist st
    rcases processDay_cases ps sendOk chat origin dest direct maxPrice cfg day hist st with
      ⟨ab, _, heq⟩ | ⟨o, os, _, _, heq⟩
    · simp only [processDays, heq]
      cases ab
      · simpa using savedBeforeSent_cons_fetch (ih hist st)
      · simpa using savedBeforeSent_cons_fetch savedBeforeSent_nil
    · simp only [processDays, heq]
      cases hs : sendOk chat
      · simpa using savedBeforeSent_cons_triple savedBeforeSent_nil
      · simpa using savedBeforeSent_cons_triple (ih _ _)

theorem processDays_saveImmediatelySent (ps : String → Request → Except Unit (List Offer))
    (sendOk : String → Bool) (chat origin dest : String) (direct : Bool)
    (maxPrice : Int) (cfg : Cfg) :
    ∀ (days : List Date) (hist : List (String × Int)) (st : StateMap),
      SaveImmediatelySent
        (processDays ps sendOk chat origin dest direct maxPrice cfg days hist st).events := by
  intro days
  induction days with
  | nil =>
    intro hist st
    simpa [processDays] using saveImmediatelySent_nil
  | cons day rest ih =>
    intro hist st
    rcases processDay_cases ps sendOk chat origin dest direct maxPrice cfg day hist st with
      ⟨ab, _, heq⟩ | ⟨o, os, _, _, heq⟩
    · simp only [processDays, heq]
      cases ab
      · simpa using saveImmediatelySent_cons_fetch (ih hist st)
      · simpa using saveImmediatelySent_cons_fetch saveImmediatelySent_nil
    · simp only [processDays, heq]
      cases hs : sendOk chat
      · simpa using saveImmediatelySent_cons_triple saveImmediatelySent_nil
      · simpa using saveImmediatelySent_cons_triple (ih _ _)

theorem processDays_counts (ps : String → Request → Except Unit (List Offer))
    (sendOk : String → Bool) (chat origin dest : String) (direct : Bool)
    (maxPrice : Int) (cfg : Cfg) :
    ∀ (days : List Date) (hist : List (String × Int)) (st : StateMap),
      ((processDays ps sendOk chat origin dest direct maxPrice cfg days hist st).events.countP
          (fun e => isSave e)) =
        ((processDays ps sendOk chat origin dest direct maxPrice cfg days hist st).events.countP
          (fun e => isSend e)) := by
  intro days
  induction days with
  | nil =>
    intro hist st
    simp [processDays]
  | cons day rest ih =>
    intro hist st
    rcases processDay_cases ps sendOk chat origin dest direct maxPrice cfg day hist st with
      ⟨ab, _, heq⟩ | ⟨o, os, _, _, heq⟩
    · simp only [processDays, heq]
      cases ab
      · have hih := ih hist st
        simp only [Bool.false_eq_true, if_false, List.countP_append, List.countP_cons,
          List.countP_nil, isSave, isSend, eq_self_iff_true, if_true] at hih ⊢
        omega
      · simp [List.countP_cons, isSave, isSend]
    · simp only [processDays, heq]
      cases hs : sendOk chat
      · simp [hs, List.countP_cons, isSave, isSend]
      · have hih := ih (alistSet hist (rdKey origin dest day) (priceKey (pyMinBy priceKey o os)))
          (alistSet st chat
            { cfg with last_sent := some (alistSet hist (rdKey origin dest day)
                (priceKey (pyMinBy priceKey o os))) })
        simp only [hs, Bool.not_true, Bool.false_eq_true, if_false, List.countP_append,
          List.countP_cons, List.countP_nil, isSave, isSend, eq_self_iff_true,
          if_true] at hih ⊢
        omega

theorem processDays_frame (ps : String → Request → Except Unit (List Offer))
    (sendOk : String → Bool) (chat origin dest : String) (direct : Bool)
    (maxPrice : Int) (cfg : Cfg) :
    ∀ (days : List Date) (hist : List (String × Int)) (st : StateMap),
      (∀ k, k ≠ chat →
        alistGet (processDays ps sendOk chat origin dest direct maxPrice cfg days hist st).st k =
          alistGet st k) ∧
      (∀ stt, Event.save stt ∈
          (processDays ps sendOk chat origin dest direct maxPrice cfg days hist st).events →
        (∀ k, k ≠ chat → alistGet stt k = alistGet st k) ∧
        (∃ h2, alistGet stt chat = some { cfg with last_sent := some h2 })) := by
  intro days
  induction days with
  | nil =>
    intro hist st
    refine ⟨fun k _ => rfl, fun stt hmem => ?_⟩
    simp [processDays] at hmem
  | cons day rest ih =>
    intro hist st
    rcases processDay_cases ps sendOk chat origin dest direct maxPrice cfg day hist st with
      ⟨ab, _, heq⟩ | ⟨o, os, _, _, heq⟩
    · simp only [processDays, heq]
      cases ab
      · simp only [Bool.false_eq_true, if_false]
        refine ⟨fun k hk => (ih hist st).1 k hk, fun stt hmem => ?_⟩
        simp only [List.cons_append, List.nil_append, List.mem_cons] at hmem
        rcases hmem with he | hmem
        · exact absurd he (by simp)
        · exact (ih hist st).2 stt hmem
      · simp only [if_true]
        refine ⟨fun k _ => trivial, fun stt hmem => ?_⟩
        simp only [List.mem_singleton] at hmem
        exact absurd hmem (by simp)
    · simp only [processDays, heq]
      cases hs : sendOk chat
      · simp only [hs, Bool.not_false, if_true]
        refine ⟨fun k hk => alistGet_set_ne st chat k _ hk, fun stt hmem => ?_⟩
        simp only [List.mem_cons, List.not_mem_nil, or_false] at hmem
        rcases hmem with he | he | he
        · exact absurd he (by simp)
        · have h2 : stt = alistSet st chat
              { cfg with last_sent := some (alistSet hist (rdKey origin dest day)
                  (priceKey (pyMinBy priceKey o os))) } := by
            injection he
          subst h2
          exact ⟨fun k hk => alistGet_set_ne st chat k _ hk,
            ⟨_, alistGet_set_self st chat _⟩⟩
        · exact absurd he (by simp)
      · simp only [hs, Bool.not_true, Bool.false_eq_true, if_false]
        have hih := ih (alistSet hist (rdKey origin dest day) (priceKey (pyMinBy priceKey o os)))
          (alistSet st chat
            { cfg with last_sent := some (alistSet hist (rdKey origin dest day)
                (priceKey (pyMinBy priceKey o os))) })
        constructor
        · intro k hk
          rw [hih.1 k hk]
          exact alistGet_set_ne st chat k _ hk
        · intro stt hmem
          simp only [List.cons_append, List.nil_append, List.mem_cons] at hmem
          rcases hmem with he | he | he | hmem
          · exact absurd he (by simp)
          · have h2 : stt = alistSet st chat
                { cfg with last_sent := some (alistSet hist (rdKey origin dest day)
                    (priceKey (pyMinBy priceKey o os))) } := by
              injection he
            subst h2
            exact ⟨fun k hk => alistGet_set_ne st chat k _ hk,
              ⟨_, alistGet_set_self st chat _⟩⟩
          · exact absurd he (by simp)
          · obtain ⟨ha, hb⟩ := hih.2 stt hmem
            refine ⟨fun k hk => ?_, hb⟩
            rw [ha k hk]
            exact alistGet_set_ne st chat k _ hk

theorem processDays_chat (ps : String → Request → Except Unit (List Offer))
    (sendOk : String → Bool) (chat origin dest : String) (direct : Bool)
    (maxPrice : Int) (cfg : Cfg) :
    ∀ (days : List Date) (hist : List (String × Int)) (st : StateMap) (e : Event),
      e ∈ (processDays ps sendOk chat origin dest direct maxPrice cfg days hist st).events →
      eventChat e = some chat ∨ eventChat e = none := by
  intro days
  induction days with
  | nil =>
    intro hist st e hmem
    simp [processDays] at hmem
  | cons day rest ih =>
    intro hist st e hmem
    rcases processDay_cases ps sendOk chat origin dest direct maxPrice cfg day hist st with
      ⟨ab, _, heq⟩ | ⟨o, os, _, _, heq⟩
    · simp only [processDays, heq] at hmem
      cases ab
      · simp only [Bool.false_eq_true, if_false, List.cons_append, List.nil_append,
          List.mem_cons] at hmem
        rcases hmem with rfl | hmem
        · exact Or.inl rfl
        · exact ih hist st e hmem
      · simp only [if_true, List.mem_singleton] at hmem
        subst hmem
        exact Or.inl rfl
    · simp only [processDays, heq] at hmem
      cases hs : sendOk chat
      · simp only [hs, Bool.not_false, if_true, List.mem_cons, List.not_mem_nil,
          or_false] at hmem
        rcases hmem with rfl | rfl | rfl
        · exact Or.inl rfl
        · exact Or.inr rfl
        · exact Or.inl rfl
      · simp only [hs, Bool.not_true, Bool.false_eq_true, if_false, List.cons_append,
          List.nil_append, List.mem_cons] at hmem
        rcases hmem with rfl | rfl | rfl | hmem
        · exact Or.inl rfl
        · exact Or.inr rfl
        · exact Or.inl rfl
        · exact ih _ _ e hmem

theorem processDays_fetchReqs (ps : String → Request → Except Unit (List Offer))
    (sendOk : String → Bool) (chat origin dest : String) (direct : Bool)
    (maxPrice : Int) (cfg : Cfg)
    (hps : ∀ q, ps chat q ≠ Except.error ()) (hsend : sendOk chat = true) :
    ∀ (days : List Date) (hist : List (String × Int)) (st : StateMap),
      fetchReqs (processDays ps sendOk chat origin dest direct maxPrice cfg days hist st).events =
        days.map (dayReq origin dest direct) ∧
      (processDays ps sendOk chat origin dest direct maxPrice cfg days hist st).aborted = false := by
  intro days
  induction days with
  | nil =>
    intro hist st
    exact ⟨rfl, rfl⟩
  | cons day rest ih =>
    intro hist st
    rcases processDay_cases ps sendOk chat origin dest direct maxPrice cfg day hist st with
      ⟨ab, habimp, heq⟩ | ⟨o, os, _, _, heq⟩
    · cases ab
      · simp only [processDays, heq, Bool.false_eq_true, if_false]
        obtain ⟨hreq, hab⟩ := ih hist st
        constructor
        · simp only [List.cons_append, List.nil_append, List.map_cons, fetchReqs,
            List.filterMap_cons] at hreq ⊢
          rw [hreq]
        · exact hab
      · exact absurd (habimp rfl) (hps _)
    · simp only [processDays, heq, hsend, Bool.not_true, Bool.false_eq_true, if_false]
      obtain ⟨hreq, hab⟩ := ih (alistSet hist (rdKey origin dest day)
          (priceKey (pyMinBy priceKey o os)))
        (alistSet st chat
          { cfg with last_sent := some (alistSet hist (rdKey origin dest day)
              (priceKey (pyMinBy priceKey o os))) })
      constructor
      · simp only [List.cons_append, List.nil_append, List.map_cons, fetchReqs,
          List.filterMap_cons] at hreq ⊢
        rw [hreq]
      · exact hab

/-! ### State-independence and oracle-congruence of a subscriber's processing -/

theorem sendsFor_append (b : String) (a c : List Event) :
    sendsFor b (a ++ c) = sendsFor b a ++ sendsFor b c :=
  List.filter_append a c

theorem fetchesFor_append (b : String) (a c : List Event) :
    fetchesFor b (a ++ c) = fetchesFor b a ++ fetchesFor b c :=
  List.filter_append a c

theorem processDay_proj (ps : String → Request → Except Unit (List Offer))
    (sendOk : String → Bool) (chat origin dest : String) (direct : Bool)
    (maxPrice : Int) (cfg : Cfg) (day : Date) (hist : List (String × Int))
    (st1 st2 : StateMap) (b : String) :
    (processDay ps sendOk chat origin dest direct maxPrice cfg day hist st1).hist =
      (processDay ps sendOk chat origin dest direct maxPrice cfg day hist st2).hist ∧
    (processDay ps sendOk chat origin dest direct maxPrice cfg day hist st1).aborted =
      (processDay ps sendOk chat origin dest direct maxPrice cfg day hist st2).aborted ∧
    sendsFor b (processDay ps sendOk chat origin dest direct maxPrice cfg day hist st1).events =
      sendsFor b (processDay ps sendOk chat origin dest direct maxPrice cfg day hist st2).events ∧
    fetchesFor b (processDay ps sendOk chat origin dest direct maxPrice cfg day hist st1).events =
      fetchesFor b (processDay ps sendOk chat origin dest direct maxPrice cfg day hist st2).events := by
  simp only [processDay]
  cases hps : ps chat (fetch_prices_params origin dest (strftimeYmd day) none direct true 100) with
  | error e => exact ⟨rfl, rfl, rfl, rfl⟩
  | ok offers =>
    cases offers with
    | nil => exact ⟨rfl, rfl, rfl, rfl⟩
    | cons o os =>
      by_cases hple : priceKey (pyMinBy priceKey o os) ≤ maxPrice
      · cases hget : alistGet hist (origin ++ "-" ++ dest ++ "-" ++ strftimeYmd day) with
        | none => simp [hple, hget, sendsFor, fetchesFor, isSend, isFetch, eventChat,
            List.filter_cons, List.filter_nil]
        | some prev =>
          by_cases hlt : priceKey (pyMinBy priceKey o os) < prev
          · simp [hple, hget, hlt, sendsFor, fetchesFor, isSend, isFetch, eventChat,
              List.filter_cons, List.filter_nil]
          · simp [hple, hget, hlt]
      · simp [hple]

theorem processDays_proj (ps : String → Request → Except Unit (List Offer))
    (sendOk : String → Bool) (chat origin dest : String) (direct : Bool)
    (maxPrice : Int) (cfg : Cfg) (b : String) :
    ∀ (days : List Date) (hist : List (String × Int)) (st1 st2 : StateMap),
      (processDays ps sendOk chat origin dest direct maxPrice cfg days hist st1).hist =
        (processDays ps sendOk chat origin dest direct maxPrice cfg days hist st2).hist ∧
      (processDays ps sendOk chat origin dest direct maxPrice cfg days hist st1).aborted =
        (processDays ps sendOk chat origin dest direct maxPrice cfg days hist st2).aborted ∧
      sendsFor b
          (processDays ps sendOk chat origin dest direct maxPrice cfg days hist st1).events =
        sendsFor b
          (processDays ps sendOk chat origin dest direct maxPrice cfg days hist st2).events ∧
      fetchesFor b
          (processDays ps sendOk chat origin dest direct maxPrice cfg days hist st1).events =
        fetchesFor b
          (processDays ps sendOk chat origin dest direct maxPrice cfg days hist st2).events := by
  intro days
  induction days with
  | nil => exact fun hist st1 st2 => ⟨rfl, rfl, rfl, rfl⟩
  | cons day rest ih =>
    intro hist st1 st2
    obtain ⟨hh, ha, hs, hf⟩ :=
      processDay_proj ps sendOk chat origin dest direct maxPrice cfg day hist st1 st2 b
    simp only [processDays]
    cases hab : (processDay ps sendOk chat origin dest direct maxPrice cfg day hist st1).aborted with
    | true =>
      rw [← ha, hab]
      rw [if_pos rfl, if_pos rfl]
      exact ⟨hh, rfl, hs, hf⟩
    | false =>
      rw [← ha, hab]
      rw [if_neg Bool.false_ne_true, if_neg Bool.false_ne_true]
      dsimp only
      rw [hh]
      obtain ⟨ih1, ih2, ih3, ih4⟩ := ih
        (processDay ps sendOk chat origin dest direct maxPrice cfg day hist st2).hist
        (processDay ps sendOk chat origin dest direct maxPrice cfg day hist st1).st
        (processDay ps sendOk chat origin dest direct maxPrice cfg day hist st2).st
      refine ⟨ih1, ih2, ?_, ?_⟩
      · rw [sendsFor_append, sendsFor_append, hs, ih3]
      · rw [fetchesFor_append, fetchesFor_append, hf, ih4]

theorem processSubscriber_proj (ps : String → Request → Except Unit (List Offer))
    (sendOk : String → Bool) (chat : String) (cfg : Cfg) (st1 st2 : StateMap) (b : String) :
    sendsFor b (processSubscriber ps sendOk chat cfg st1).1 =
      sendsFor b (processSubscriber ps sendOk chat cfg st2).1 ∧
    fetchesFor b (processSubscriber ps sendOk chat cfg st1).1 =
      fetchesFor b (processSubscriber ps sendOk chat cfg st2).1 := by
  simp only [processSubscriber]
  by_cases hg : (!(cfg.enabled.getD false) || !truthyStr cfg.date_from ||
      !truthyStr cfg.date_to || !truthyInt cfg.max_price) = true
  · simp [hg]
  · simp only [hg, Bool.false_eq_true, if_false]
    cases h1 : parse_ymd (cfg.date_from.getD "") with
    | none => exact ⟨rfl, rfl⟩
    | some df =>
      cases h2 : parse_ymd (cfg.date_to.getD "") with
      | none => exact ⟨rfl, rfl⟩
      | some dt2 =>
        obtain ⟨_, _, h3, h4⟩ := processDays_proj ps sendOk chat (cfg.origin.getD DEFAULT_ORIGIN)
          (cfg.dest.getD DEFAULT_DEST) (cfg.direct.getD false) (cfg.max_price.getD 0) cfg b
          (date_range df dt2) (cfg.last_sent.getD []) st1 st2
        exact ⟨h3, h4⟩

theorem processDay_ps_congr {ps ps2 : String → Request → Except Unit (List Offer)}
    (sendOk : String → Bool) (chat origin dest : String) (direct : Bool)
    (maxPrice : Int) (cfg : Cfg) (day : Date) (hist : List (String × Int))
    (st : StateMap) (hb : ps chat = ps2 chat) :
    processDay ps sendOk chat origin dest direct maxPrice cfg day hist st =
      processDay ps2 sendOk chat origin dest direct maxPrice cfg day hist st := by
  simp only [processDay, hb]

theorem processDays_ps_congr {ps ps2 : String → Request → Except Unit (List Offer)}
    (sendOk : String → Bool) (chat origin dest : String) (direct : Bool)
    (maxPrice : Int) (cfg : Cfg) (hb : ps chat = ps2 chat) :
    ∀ (days : List Date) (hist : List (String × Int)) (st : StateMap),
      processDays ps sendOk chat origin dest direct maxPrice cfg days hist st =
        processDays ps2 sendOk chat origin dest direct maxPrice cfg days hist st := by
  intro days
  induction days with
  | nil => exact fun hist st => rfl
  | cons day rest ih =>
    intro hist st
    simp only [processDays,
      processDay_ps_congr sendOk chat origin dest direct maxPrice cfg day hist st hb, ih]

theorem processSubscriber_ps_congr {ps ps2 : String → Request → Except Unit (List Offer)}
    (sendOk : String → Bool) (chat : String) (cfg : Cfg) (st : StateMap)
    (hb : ps chat = ps2 chat) :
    processSubscriber ps sendOk chat cfg st = processSubscriber ps2 sendOk chat cfg st := by
  simp only [processSubscriber]
  by_cases hg : (!(cfg.enabled.getD false) || !truthyStr cfg.date_from ||
      !truthyStr cfg.date_to || !truthyInt cfg.max_price) = true
  · simp only [hg, if_true]
  · simp only [hg, Bool.false_eq_true, if_false]
    cases h1 : parse_ymd (cfg.date_from.getD "") with
    | none => rfl
    | some df =>
      cases h2 : parse_ymd (cfg.date_to.getD "") with
      | none => rfl
      | some dt2 =>
        dsimp only
        rw [processDays_ps_congr sendOk chat (cfg.origin.getD DEFAULT_ORIGIN)
          (cfg.dest.getD DEFAULT_DEST) (cfg.direct.getD false) (cfg.max_price.getD 0) cfg hb]

/-! ### Subscriber-level structure -/

/-- A subscriber's processing either has no effect at all (ineligible, or a
date failed to parse), or runs the day loop over the parsed inclusive range. -/
theorem processSubscriber_cases (ps : String → Request → Except Unit (List Offer))
    (sendOk : String → Bool) (chat : String) (cfg : Cfg) (st : StateMap) :
    processSubscriber ps sendOk chat cfg st = ([], st) ∨
    ∃ d1 d2, parse_ymd (cfg.date_from.getD "") = some d1 ∧
      parse_ymd (cfg.date_to.getD "") = some d2 ∧
      processSubscriber ps sendOk chat cfg st =
        ((processDays ps sendOk chat (cfg.origin.getD DEFAULT_ORIGIN)
            (cfg.dest.getD DEFAULT_DEST) (cfg.direct.getD false) (cfg.max_price.getD 0)
            cfg (date_range d1 d2) (cfg.last_sent.getD []) st).events,
          (processDays ps sendOk chat (cfg.origin.getD DEFAULT_ORIGIN)
            (cfg.dest.getD DEFAULT_DEST) (cfg.direct.getD false) (cfg.max_price.getD 0)
            cfg (date_range d1 d2) (cfg.last_sent.getD []) st).st) := by
  simp only [processSubscriber]
  by_cases hg : (!(cfg.enabled.getD false) || !truthyStr cfg.date_from ||
      !truthyStr cfg.date_to || !truthyInt cfg.max_price) = true
  · simp only [hg, if_true]
    exact Or.inl trivial
  · simp only [hg, Bool.false_eq_true, if_false]
    cases h1 : parse_ymd (cfg.date_from.getD "") with
    | none => exact Or.inl rfl
    | some df =>
      cases h2 : parse_ymd (cfg.date_to.getD "") with
      | none => exact Or.inl rfl
      | some dt2 => exact Or.inr ⟨df, dt2, rfl, rfl, rfl⟩

theorem processSubscriber_savedBeforeSent (ps : String → Request → Except Unit (List Offer))
    (sendOk : String → Bool) (chat : String) (cfg : Cfg) (st : StateMap) :
    SavedBeforeSent (processSubscriber ps sendOk chat cfg st).1 := by
  rcases processSubscriber_cases ps sendOk chat cfg st with heq | ⟨d1, d2, _, _, heq⟩
  · rw [heq]
    exact savedBeforeSent_nil
  · rw [heq]
    exact processDays_savedBeforeSent ps sendOk chat _ _ _ _ cfg _ _ _

theorem processSubscriber_saveImmediatelySent (ps : String → Request → Except Unit (List Offer))
    (sendOk : String → Bool) (chat : String) (cfg : Cfg) (st : StateMap) :
    SaveImmediatelySent (processSubscriber ps sendOk chat cfg st).1 := by
  rcases processSubscriber_cases ps sendOk chat cfg st with heq | ⟨d1, d2, _, _, heq⟩
  · rw [heq]
    exact saveImmediatelySent_nil
  · rw [heq]
    exact processDays_saveImmediatelySent ps sendOk chat _ _ _ _ cfg _ _ _

theorem processSubscriber_counts (ps : String → Request → Except Unit (List Offer))
    (sendOk : String → Bool) (chat : String) (cfg : Cfg) (st : StateMap) :
    (processSubscriber ps sendOk chat cfg st).1.countP (fun e => isSave e) =
      (processSubscriber ps sendOk chat cfg st).1.countP (fun e => isSend e) := by
  rcases processSubscriber_cases ps sendOk chat cfg st with heq | ⟨d1, d2, _, _, heq⟩
  · rw [heq]
    rfl
  · rw [heq]
    exact processDays_counts ps sendOk chat _ _ _ _ cfg _ _ _

theorem processSubscriber_chat (ps : String → Request → Except Unit (List Offer))
    (sendOk : String → Bool) (chat : String) (cfg : Cfg) (st : StateMap) (e : Event)
    (hmem : e ∈ (processSubscriber ps sendOk chat cfg st).1) :
    eventChat e = some chat ∨ eventChat e = none := by
  rcases processSubscriber_cases ps sendOk chat cfg st with heq | ⟨d1, d2, _, _, heq⟩
  · rw [heq] at hmem
    simp at hmem
  · rw [heq] at hmem
    exact processDays_chat ps sendOk chat _ _ _ _ cfg _ _ _ e hmem

theorem processSubscriber_frame (ps : String → Request → Except Unit (List Offer))
    (sendOk : String → Bool) (chat : String) (cfg : Cfg) (st : StateMap) :
    (∀ k, k ≠ chat →
      alistGet (processSubscriber ps sendOk chat cfg st).2 k = alistGet st k) ∧
    (∀ stt, Event.save stt ∈ (processSubscriber ps sendOk chat cfg st).1 →
      (∀ k, k ≠ chat → alistGet stt k = alistGet st k) ∧
      (∃ h2, alistGet stt chat = some { cfg with last_sent := some h2 })) := by
  rcases processSubscriber_cases ps sendOk chat cfg st with heq | ⟨d1, d2, _, _, heq⟩
  · rw [heq]
    exact ⟨fun k _ => rfl, fun stt hmem => by simp at hmem⟩
  · rw [heq]
    exact processDays_frame ps sendOk chat _ _ _ _ cfg _ _ _

theorem processDays_chatEntry (ps : String → Request → Except Unit (List Offer))
    (sendOk : String → Bool) (chat origin dest : String) (direct : Bool)
    (maxPrice : Int) (cfg : Cfg) :
    ∀ (days : List Date) (hist : List (String × Int)) (st : StateMap),
      alistGet (processDays ps sendOk chat origin dest direct maxPrice cfg days hist st).st chat =
          alistGet st chat ∨
      ∃ h2, alistGet
          (processDays ps sendOk chat origin dest direct maxPrice cfg days hist st).st chat =
        some { cfg with last_sent := some h2 } := by
  intro days
  induction days with
  | nil => exact fun hist st => Or.inl rfl
  | cons day rest ih =>
    intro hist st
    rcases processDay_cases ps sendOk chat origin dest direct maxPrice cfg day hist st with
      ⟨ab, _, heq⟩ | ⟨o, os, _, _, heq⟩
    · simp only [processDays, heq]
      cases ab
      · simp only [Bool.false_eq_true, if_false]
        exact ih hist st
      · simp only [if_true]
        exact Or.inl trivial
    · simp only [processDays, heq]
      cases hs : sendOk chat
      · simp only [hs, Bool.not_false, if_true]
        exact Or.inr ⟨_, alistGet_set_self st chat _⟩
      · simp only [hs, Bool.not_true, Bool.false_eq_true, if_false]
        rcases ih (alistSet hist (rdKey origin dest day) (priceKey (pyMinBy priceKey o os)))
            (alistSet st chat
              { cfg with last_sent := some (alistSet hist (rdKey origin dest day)
                  (priceKey (pyMinBy priceKey o os))) }) with hun | ⟨h2, hset⟩
        · rw [hun]
          exact Or.inr ⟨_, alistGet_set_self st chat _⟩
        · exact Or.inr ⟨h2, hset⟩

theorem processSubscriber_chatEntry (ps : String → Request → Except Unit (List Offer))
    (sendOk : String → Bool) (chat : String) (cfg : Cfg) (st : StateMap) :
    alistGet (processSubscriber ps sendOk chat cfg st).2 chat = alistGet st chat ∨
    ∃ h2, alistGet (processSubscriber ps sendOk chat cfg st).2 chat =
      some { cfg with last_sent := some h2 } := by
  rcases processSubscriber_cases ps sendOk chat cfg st with heq | ⟨d1, d2, _, _, heq⟩
  · rw [heq]
    exact Or.inl rfl
  · rw [heq]
    exact processDays_chatEntry ps sendOk chat _ _ _ _ cfg _ _ _

/-! ### Cycle-level structure -/

theorem runCycleAux_savedBeforeSent (ps : String → Request → Except Unit (List Offer))
    (sendOk : String → Bool) :
    ∀ (entries : List (String × Cfg)) (st : StateMap),
      SavedBeforeSent (runCycleAux ps sendOk entries st).1 := by
  intro entries
  induction entries with
  | nil => exact fun st => savedBeforeSent_nil
  | cons p rest ih =>
    intro st
    obtain ⟨chat, cfg⟩ := p
    simp only [runCycleAux]
    exact savedBeforeSent_append (processSubscriber_savedBeforeSent ps sendOk chat cfg st)
      (ih _)

theorem runCycleAux_saveImmediatelySent (ps : String → Request → Except Unit (List Offer))
    (sendOk : String → Bool) :
    ∀ (entries : List (String × Cfg)) (st : StateMap),
      SaveImmediatelySent (runCycleAux ps sendOk entries st).1 := by
  intro entries
  induction entries with
  | nil => exact fun st => saveImmediatelySent_nil
  | cons p rest ih =>
    intro st
    obtain ⟨chat, cfg⟩ := p
    simp only [runCycleAux]
    exact saveImmediatelySent_append
      (processSubscriber_saveImmediatelySent ps sendOk chat cfg st) (ih _)

theorem runCycleAux_counts (ps : String → Request → Except Unit (List Offer))
    (sendOk : String → Bool) :
    ∀ (entries : List (String × Cfg)) (st : StateMap),
      (runCycleAux ps sendOk entries st).1.countP (fun e => isSave e) =
        (runCycleAux ps sendOk entries st).1.countP (fun e => isSend e) := by
  intro entries
  induction entries with
  | nil => exact fun st => rfl
  | cons p rest ih =>
    intro st
    obtain ⟨chat, cfg⟩ := p
    simp only [runCycleAux, List.countP_append]
    rw [processSubscriber_counts ps sendOk chat cfg st, ih]

theorem eventsFor_nil {b chat : String} {es : List Event} (hne : chat ≠ b)
    (hall : ∀ e ∈ es, eventChat e = some chat ∨ eventChat e = none) :
    sendsFor b es = [] ∧ fetchesFor b es = [] := by
  constructor
  · rw [sendsFor, List.filter_eq_nil_iff]
    intro e hmem
    rcases hall e hmem with hc | hc <;> simp [hc, hne]
  · rw [fetchesFor, List.filter_eq_nil_iff]
    intro e hmem
    rcases hall e hmem with hc | hc <;> simp [hc, hne]

theorem runCycleAux_isolated {ps ps2 : String → Request → Except Unit (List Offer)}
    (sendOk : String → Bool) (b : String) (hb : ps b = ps2 b) :
    ∀ (entries : List (String × Cfg)) (st1 st2 : StateMap),
      sendsFor b (runCycleAux ps sendOk entries st1).1 =
        sendsFor b (runCycleAux ps2 sendOk entries st2).1 ∧
      fetchesFor b (runCycleAux ps sendOk entries st1).1 =
        fetchesFor b (runCycleAux ps2 sendOk entries st2).1 := by
  intro entries
  induction entries with
  | nil => exact fun st1 st2 => ⟨rfl, rfl⟩
  | cons p rest ih =>
    intro st1 st2
    obtain ⟨chat, cfg⟩ := p
    simp only [runCycleAux, sendsFor_append, fetchesFor_append]
    obtain ⟨ihs, ihf⟩ := ih (processSubscriber ps sendOk chat cfg st1).2
      (processSubscriber ps2 sendOk chat cfg st2).2
    by_cases hc : chat = b
    · have hbc : ps chat = ps2 chat := by rw [hc]; exact hb
      obtain ⟨hps1, hpf1⟩ := processSubscriber_proj ps sendOk chat cfg st1 st2 b
      rw [hps1, hpf1, processSubscriber_ps_congr sendOk chat cfg st2 hbc, ihs, ihf]
      exact ⟨rfl, rfl⟩
    · obtain ⟨hn1, hn2⟩ := eventsFor_nil hc
        (fun e hmem => processSubscriber_chat ps sendOk chat cfg st1 e hmem)
      obtain ⟨hn3, hn4⟩ := eventsFor_nil hc
        (fun e hmem => processSubscriber_chat ps2 sendOk chat cfg st2 e hmem)
      rw [hn1, hn2, hn3, hn4, ihs, ihf]
      exact ⟨rfl, rfl⟩

/-! ### What the scheduler's store writes contain -/

/-- Two configurations agree on every field except the notification history. -/
def cfgSameExceptLastSent (a b2 : Cfg) : Prop :=
  a.origin = b2.origin ∧ a.dest = b2.dest ∧ a.date_from = b2.date_from ∧
  a.date_to = b2.date_to ∧ a.max_price = b2.max_price ∧ a.direct = b2.direct ∧
  a.one_way = b2.one_way ∧ a.enabled = b2.enabled

/-- A store value derived from the cycle-start snapshot: same key set, and each
entry differs from the snapshot's at most in its notification history. -/
def SnapDerived (snap stt : StateMap) : Prop :=
  (∀ k, alistGet snap k = none → alistGet stt k = none) ∧
  (∀ k c0, alistGet snap k = some c0 →
    ∃ c2, alistGet stt k = some c2 ∧ cfgSameExceptLastSent c0 c2)

theorem cfgSameExceptLastSent_update (cfg : Cfg) (h2 : List (String × Int)) :
    cfgSameExceptLastSent cfg { cfg with last_sent := some h2 } :=
  ⟨rfl, rfl, rfl, rfl, rfl, rfl, rfl, rfl⟩

theorem alistGet_of_nodup : ∀ (snap : StateMap),
    (snap.map Prod.fst).Nodup → ∀ p ∈ snap, alistGet snap p.1 = some p.2 := by
  intro snap
  induction snap with
  | nil => intro _ p hp; simp at hp
  | cons q rest ih =>
    intro hnd p hp
    obtain ⟨k, v⟩ := q
    simp only [List.map_cons, List.nodup_cons] at hnd
    rcases List.mem_cons.1 hp with rfl | hp2
    · simp [alistGet]
    · have hk : k ≠ p.1 := by
        intro he
        exact hnd.1 (he ▸ List.mem_map_of_mem Prod.fst hp2)
      simp only [alistGet, hk, if_false]
      exact ih hnd.2 p hp2

theorem processSubscriber_snapDerived (ps : String → Request → Except Unit (List Offer))
    (sendOk : String → Bool) (chat : String) (cfg : Cfg) (st : StateMap)
    (snap : StateMap) (hchat : alistGet snap chat = some cfg)
    (hst : SnapDerived snap st) :
    SnapDerived snap (processSubscriber ps sendOk chat cfg st).2 ∧
    (∀ stt, Event.save stt ∈ (processSubscriber ps sendOk chat cfg st).1 →
      SnapDerived snap stt) := by
  obtain ⟨hframe, hsaves⟩ := processSubscriber_frame ps sendOk chat cfg st
  constructor
  · constructor
    · intro k hk
      have hne : k ≠ chat := by
        intro he
        rw [he, hchat] at hk
        exact Option.noConfusion hk
      rw [hframe k hne]
      exact hst.1 k hk
    · intro k c0 hk
      by_cases hke : k = chat
      · subst hke
        rw [hchat] at hk
        have hv := Option.some.inj hk
        rw [← hv]
        rcases processSubscriber_chatEntry ps sendOk k cfg st with hun | ⟨h2, hset⟩
        · rw [hun]
          exact hst.2 k cfg hchat
        · exact ⟨_, hset, cfgSameExceptLastSent_update cfg h2⟩
      · rw [hframe k hke]
        exact hst.2 k c0 hk
  · intro stt hmem
    obtain ⟨hother, h2, hset⟩ := hsaves stt hmem
    constructor
    · intro k hk
      have hne : k ≠ chat := by
        intro he
        rw [he, hchat] at hk
        exact Option.noConfusion hk
      rw [hother k hne]
      exact hst.1 k hk
    · intro k c0 hk
      by_cases hke : k = chat
      · subst hke
        rw [hchat] at hk
        have hv := Option.some.inj hk
        rw [← hv]
        exact ⟨_, hset, cfgSameExceptLastSent_update cfg h2⟩
      · rw [hother k hke]
        exact hst.2 k c0 hk

theorem runCycleAux_snapDerived (ps : String → Request → Except Unit (List Offer))
    (sendOk : String → Bool) (snap : StateMap) :
    ∀ (entries : List (String × Cfg)) (st : StateMap),
      (∀ p ∈ entries, alistGet snap p.1 = some p.2) → SnapDerived snap st →
      SnapDerived snap (runCycleAux ps sendOk entries st).2 ∧
      (∀ stt, Event.save stt ∈ (runCycleAux ps sendOk entries st).1 →
        SnapDerived snap stt) := by
  intro entries
  induction entries with
  | nil =>
    intro st _ hst
    exact ⟨hst, fun stt hmem => by simp [runCycleAux] at hmem⟩
  | cons p rest ih =>
    intro st hmem hst
    obtain ⟨chat, cfg⟩ := p
    have hchat : alistGet snap chat = some cfg := hmem (chat, cfg) (List.mem_cons_self _ _)
    obtain ⟨hst2, hsaves1⟩ :=
      processSubscriber_snapDerived ps sendOk chat cfg st snap hchat hst
    obtain ⟨hst3, hsaves2⟩ := ih (processSubscriber ps sendOk chat cfg st).2
      (fun q hq => hmem q (List.mem_cons_of_mem _ hq)) hst2
    refine ⟨hst3, fun stt hmemv => ?_⟩
    simp only [runCycleAux, List.mem_append] at hmemv
    rcases hmemv with hv | hv
    · exact hsaves1 stt hv
    · exact hsaves2 stt hv

/-! ### Python `min` characterization -/

theorem pyMinBy_spec {α : Type} (f : α → Int) : ∀ (xs : List α) (b : α),
    pyMinBy f b xs ∈ b :: xs ∧
    (∀ x ∈ b :: xs, f (pyMinBy f b xs) ≤ f x) ∧
    ∃ l1 l2, b :: xs = l1 ++ pyMinBy f b xs :: l2 ∧
      ∀ x ∈ l1, f (pyMinBy f b xs) < f x := by
  intro xs
  induction xs with
  | nil =>
    intro b
    refine ⟨by simp [pyMinBy], ?_, [], [], by simp [pyMinBy], by simp⟩
    intro x hx
    simp only [List.mem_singleton] at hx
    subst hx
    simp [pyMinBy]
  | cons x rest ih =>
    intro b
    simp only [pyMinBy]
    by_cases hlt : f x < f b
    · rw [if_pos hlt]
      obtain ⟨hmem, hmin, l1, l2, hdec, hgt⟩ := ih x
      refine ⟨List.mem_cons_of_mem b hmem, ?_, b :: l1, l2, ?_, ?_⟩
      · intro y hy
        rcases List.mem_cons.1 hy with rfl | hy2
        · exact le_of_lt (lt_of_le_of_lt (hmin x (List.mem_cons_self _ _)) hlt)
        · exact hmin y hy2
      · rw [List.cons_append, ← hdec]
      · intro y hy
        rcases List.mem_cons.1 hy with rfl | hy2
        · exact lt_of_le_of_lt (hmin x (List.mem_cons_self _ _)) hlt
        · exact hgt y hy2
    · rw [if_neg hlt]
      push_neg at hlt
      obtain ⟨hmem, hmin, l1, l2, hdec, hgt⟩ := ih b
      have hmem2 : pyMinBy f b rest ∈ b :: x :: rest := by
        rcases List.mem_cons.1 hmem with he | hy2
        · rw [he]
          exact List.mem_cons_self _ _
        · exact List.mem_cons_of_mem b (List.mem_cons_of_mem x hy2)
      have hmin2 : ∀ y ∈ b :: x :: rest, f (pyMinBy f b rest) ≤ f y := by
        intro y hy
        rcases List.mem_cons.1 hy with rfl | hy2
        · exact hmin y (List.mem_cons_self _ _)
        · rcases List.mem_cons.1 hy2 with rfl | hy3
          · exact le_trans (hmin b (List.mem_cons_self _ _)) hlt
          · exact hmin y (List.mem_cons_of_mem b hy3)
      cases l1 with
      | nil =>
        simp only [List.nil_append] at hdec
        have hres : pyMinBy f b rest = b := List.head_eq_of_cons_eq hdec.symm
        refine ⟨hmem2, hmin2, [], x :: rest, ?_, by simp⟩
        simp only [List.nil_append, hres]
      | cons a t =>
        have ha : a = b := (List.head_eq_of_cons_eq hdec).symm
        have ht : rest = t ++ pyMinBy f b rest :: l2 := List.tail_eq_of_cons_eq hdec
        refine ⟨hmem2, hmin2, b :: x :: t, l2, ?_, ?_⟩
        · rw [List.cons_append, List.cons_append, ← ht]
        · intro y hy
          rcases List.mem_cons.1 hy with rfl | hy2
          · exact hgt y (ha ▸ List.mem_cons_self a t)
          · rcases List.mem_cons.1 hy2 with rfl | hy3
            · exact lt_of_lt_of_le (hgt b (ha ▸ List.mem_cons_self a t)) hlt
            · exact hgt y (List.mem_cons_of_mem a hy3)

/-! ### Bridges between the loop and the spec-level operations -/

theorem processDay_send_iff (ps : String → Request → Except Unit (List Offer))
    (sendOk : String → Bool) (chat origin dest : String) (direct : Bool)
    (maxPrice : Int) (cfg : Cfg) (day : Date) (hist : List (String × Int))
    (st : StateMap) (o : Offer) (os : List Offer)
    (hok : ps chat (dayReq origin dest direct day) = Except.ok (o :: os)) :
    ((processDay ps sendOk chat origin dest direct maxPrice cfg day hist st).events.any
        (fun e => isSend e)) =
      (evaluate (rdKey origin dest day) (priceKey (pyMinBy priceKey o os)) maxPrice hist).1 := by
  simp only [dayReq] at hok
  simp only [processDay, evaluate, rdKey]
  rw [hok]
  dsimp only
  by_cases hple : priceKey (pyMinBy priceKey o os) ≤ maxPrice
  · rw [if_pos hple, if_pos hple]
    cases hget : alistGet hist (origin ++ "-" ++ dest ++ "-" ++ strftimeYmd day) with
    | none => simp [isSend]
    | some prev =>
      by_cases hlt : priceKey (pyMinBy priceKey o os) < prev
      · simp [hlt, isSend]
      · simp [hlt, isSend]
  · rw [if_neg hple, if_neg hple]
    simp [isSend]

theorem processDays_fetch_shape (ps : String → Request → Except Unit (List Offer))
    (sendOk : String → Bool) (chat origin dest : String) (direct : Bool)
    (maxPrice : Int) (cfg : Cfg) :
    ∀ (days : List Date) (hist : List (String × Int)) (st : StateMap) (c : String)
      (r : Request),
      Event.fetch c r ∈
          (processDays ps sendOk chat origin dest direct maxPrice cfg days hist st).events →
      ∃ day, r = dayReq origin dest direct day := by
  intro days
  induction days with
  | nil =>
    intro hist st c r hmem
    simp [processDays] at hmem
  | cons day rest ih =>
    intro hist st c r hmem
    rcases processDay_cases ps sendOk chat origin dest direct maxPrice cfg day hist st with
      ⟨ab, _, heq⟩ | ⟨o, os, _, _, heq⟩
    · simp only [processDays, heq] at hmem
      cases ab
      · simp only [Bool.false_eq_true, if_false, List.cons_append, List.nil_append,
          List.mem_cons] at hmem
        rcases hmem with he | hmem
        · have : r = dayReq origin dest direct day := by
            injection he with h1 h2
          exact ⟨day, this⟩
        · exact ih _ _ c r hmem
      · simp only [if_true, List.mem_singleton] at hmem
        have : r = dayReq origin dest direct day := by
          injection hmem with h1 h2
        exact ⟨day, this⟩
    · simp only [processDays, heq] at hmem
      cases hs : sendOk chat
      · simp only [hs, Bool.not_false, if_true, List.mem_cons, List.not_mem_nil,
          or_false] at hmem
        rcases hmem with he | he | he
        · have : r = dayReq origin dest direct day := by
            injection he with h1 h2
          exact ⟨day, this⟩
        · exact absurd he (by simp)
        · exact absurd he (by simp)
      · simp only [hs, Bool.not_true, Bool.false_eq_true, if_false, List.cons_append,
          List.nil_append, List.mem_cons] at hmem
        rcases hmem with he | he | he | hmem
        · have : r = dayReq origin dest direct day := by
            injection he with h1 h2
          exact ⟨day, this⟩
        · exact absurd he (by simp)
        · exact absurd he (by simp)
        · exact ih _ _ c r hmem

theorem processSubscriber_fetch_shape (ps : String → Request → Except Unit (List Offer))
    (sendOk : String → Bool) (chat : String) (cfg : Cfg) (st : StateMap) (c : String)
    (r : Request) (hmem : Event.fetch c r ∈ (processSubscriber ps sendOk chat cfg st).1) :
    ∃ o2 d2 dir day, r = dayReq o2 d2 dir day := by
  rcases processSubscriber_cases ps sendOk chat cfg st with heq | ⟨d1, d2, _, _, heq⟩
  · rw [heq] at hmem
    simp at hmem
  · rw [heq] at hmem
    obtain ⟨day, hday⟩ := processDays_fetch_shape ps sendOk chat _ _ _ _ cfg _ _ _ c r hmem
    exact ⟨_, _, _, day, hday⟩

theorem runCycleAux_fetch_shape (ps : String → Request → Except Unit (List Offer))
    (sendOk : String → Bool) :
    ∀ (entries : List (String × Cfg)) (st : StateMap) (c : String) (r : Request),
      Event.fetch c r ∈ (runCycleAux ps sendOk entries st).1 →
      ∃ o2 d2 dir day, r = dayReq o2 d2 dir day := by
  intro entries
  induction entries with
  | nil =>
    intro st c r hmem
    simp [runCycleAux] at hmem
  | cons p rest ih =>
    intro st c r hmem
    obtain ⟨chat, cfg⟩ := p
    simp only [runCycleAux, List.mem_append] at hmem
    rcases hmem with hv | hv
    · exact processSubscriber_fetch_shape ps sendOk chat cfg st c r hv
    · exact ih _ c r hv

theorem dayReq_one_way (o2 d2 : String) (dir : Bool) (day : Date) :
    (dayReq o2 d2 dir day).one_way = "true" ∧ (dayReq o2 d2 dir day).return_at = none := by
  constructor <;> rfl

theorem processSubscriber_skip (ps : String → Request → Except Unit (List Offer))
    (sendOk : String → Bool) (chat : String) (cfg : Cfg) (st : StateMap)
    (h : (!(cfg.enabled.getD false) || !truthyStr cfg.date_from ||
      !truthyStr cfg.date_to || !truthyInt cfg.max_price) = true) :
    processSubscriber ps sendOk chat cfg st = ([], st) := by
  simp [processSubscriber, h]

theorem processSubscriber_run (ps : String → Request → Except Unit (List Offer))
    (sendOk : String → Bool) (chat : String) (cfg : Cfg) (st : StateMap)
    {s1 s2 : String} {d1 d2 : Date} {mp : Int}
    (hen : cfg.enabled.getD false = true) (hdf : cfg.date_from = some s1)
    (hdt : cfg.date_to = some s2) (hmp : cfg.max_price = some mp) (hmp0 : mp ≠ 0)
    (h1 : parse_ymd s1 = some d1) (h2 : parse_ymd s2 = some d2) :
    processSubscriber ps sendOk chat cfg st =
      ((processDays ps sendOk chat (cfg.origin.getD DEFAULT_ORIGIN)
          (cfg.dest.getD DEFAULT_DEST) (cfg.direct.getD false) mp cfg
          (date_range d1 d2) (cfg.last_sent.getD []) st).events,
        (processDays ps sendOk chat (cfg.origin.getD DEFAULT_ORIGIN)
          (cfg.dest.getD DEFAULT_DEST) (cfg.direct.getD false) mp cfg
          (date_range d1 d2) (cfg.last_sent.getD []) st).st) := by
  have ht1 : truthyStr (some s1) = true := truthyStr_of_parse h1
  have ht2 : truthyStr (some s2) = true := truthyStr_of_parse h2
  have ht3 : truthyInt (some mp) = true := by simp [truthyInt, hmp0]
  simp only [processSubscriber, hen, hdf, hdt, hmp, ht1, ht2, ht3, Bool.not_true,
    Bool.or_false, Bool.or_self, Bool.false_or, Bool.false_eq_true, if_false,
    Option.getD_some, h1, h2]

/-! ### Dedup-filter helper lemmas -/

theorem evaluate_fired_hist {key : String} {p m : Int} {h : List (String × Int)}
    (hf : (evaluate key p m h).1 = true) :
    (evaluate key p m h).2 = alistSet h key p := by
  by_cases hple : p ≤ m
  · cases hget : alistGet h key with
    | none => simp [evaluate, hple, hget]
    | some prev =>
      by_cases hlt : p < prev
      · simp [evaluate, hple, hget, hlt]
      · simp [evaluate, hple, hget, hlt] at hf
  · simp [evaluate, hple] at hf

theorem evaluate_not_fired_hist {key : String} {p m : Int} {h : List (String × Int)}
    (hf : (evaluate key p m h).1 = false) :
    (evaluate key p m h).2 = h := by
  by_cases hple : p ≤ m
  · cases hget : alistGet h key with
    | none => simp [evaluate, hple, hget] at hf
    | some prev =>
      by_cases hlt : p < prev
      · simp [evaluate, hple, hget, hlt] at hf
      · simp [evaluate, hple, hget, hlt]
  · simp [evaluate, hple]

theorem evaluate_fired_lt {key : String} {p m : Int} {h : List (String × Int)}
    (prev : Int) (hget : alistGet h key = some prev)
    (hf : (evaluate key p m h).1 = true) : p < prev := by
  by_cases hlt : p < prev
  · exact hlt
  · exfalso
    by_cases hple : p ≤ m
    · simp [evaluate, hple, hget, hlt] at hf
    · simp [evaluate, hple] at hf

theorem evaluate_true_iff (key : String) (p m : Int) (h : List (String × Int)) :
    (evaluate key p m h).1 = true ↔
      (p ≤ m ∧ (alistGet h key = none ∨
        ∃ prev, alistGet h key = some prev ∧ p < prev)) := by
  by_cases hple : p ≤ m
  · cases hget : alistGet h key with
    | none => simp [evaluate, hple, hget]
    | some prev =>
      by_cases hlt : p < prev
      · simp [evaluate, hple, hget, hlt]
      · simp [evaluate, hple, hget, hlt]
  · simp [evaluate, hple]

theorem evalSeq_chain (key : String) (m : Int) :
    ∀ (prices : List Int) (h : List (String × Int)),
      List.Chain' (fun a b2 => b2 < a) (evalSeq key m prices h).1 ∧
      (∀ n, (evalSeq key m prices h).1.head? = some n →
        ∀ prev, alistGet h key = some prev → n < prev) := by
  intro prices
  induction prices with
  | nil =>
    intro h
    constructor
    · simp [evalSeq]
    · intro n hn
      simp [evalSeq] at hn
  | cons p rest ih =>
    intro h
    cases hr : (evaluate key p m h).1 with
    | true =>
      have hh2 := evaluate_fired_hist hr
      have hget2 : alistGet (evaluate key p m h).2 key = some p := by
        rw [hh2]
        exact alistGet_set_self h key p
      obtain ⟨ihc, ihh⟩ := ih (evaluate key p m h).2
      constructor
      · simp only [evalSeq, hr, if_true]
        rw [List.chain'_cons']
        refine ⟨fun y hy => ihh y hy p hget2, ihc⟩
      · intro n hn prev hget
        simp only [evalSeq, hr, if_true, List.head?_cons, Option.some.injEq] at hn
        rw [← hn]
        exact evaluate_fired_lt prev hget hr
    | false =>
      have hh2 := evaluate_not_fired_hist hr
      obtain ⟨ihc, ihh⟩ := ih (evaluate key p m h).2
      constructor
      · simp only [evalSeq, hr, Bool.false_eq_true, if_false]
        exact ihc
      · intro n hn prev hget
        simp only [evalSeq, hr, Bool.false_eq_true, if_false] at hn
        refine ihh n hn prev ?_
        rw [hh2]
        exact hget

/-! ### Remaining day-loop helper lemmas -/

theorem processDay_empty (ps : String → Request → Except Unit (List Offer))
    (sendOk : String → Bool) (chat origin dest : String) (direct : Bool)
    (maxPrice : Int) (cfg : Cfg) (day : Date) (hist : List (String × Int))
    (st : StateMap) (h : ps chat (dayReq origin dest direct day) = Except.ok []) :
    processDay ps sendOk chat origin dest direct maxPrice cfg day hist st =
      ⟨[Event.fetch chat (dayReq origin dest direct day)], hist, st, false⟩ := by
  simp only [dayReq] at h ⊢
  simp only [processDay]
  rw [h]

theorem processDays_fetch_cons (ps : String → Request → Except Unit (List Offer))
    (sendOk : String → Bool) (chat origin dest : String) (direct : Bool)
    (maxPrice : Int) (cfg : Cfg) (day : Date) (rest : List Date)
    (hist : List (String × Int)) (st : StateMap) :
    ∃ t, fetchReqs
        (processDays ps sendOk chat origin dest direct maxPrice cfg (day :: rest) hist st).events =
      dayReq origin dest direct day :: t := by
  rcases processDay_cases ps sendOk chat origin dest direct maxPrice cfg day hist st with
    ⟨ab, _, heq⟩ | ⟨o, os, _, _, heq⟩
  · simp only [processDays, heq]
    cases ab
    · simp only [Bool.false_eq_true, if_false]
      refine ⟨fetchReqs
        (processDays ps sendOk chat origin dest direct maxPrice cfg rest hist st).events, ?_⟩
      simp [fetchReqs, List.filterMap_cons, List.filterMap_append]
    · simp only [if_true]
      exact ⟨[], by simp [fetchReqs, List.filterMap_cons]⟩
  · simp only [processDays, heq]
    cases hs : sendOk chat
    · simp only [hs, Bool.not_false, if_true]
      exact ⟨[], by simp [fetchReqs, List.filterMap_cons]⟩
    · simp only [hs, Bool.not_true, Bool.false_eq_true, if_false]
      refine ⟨fetchReqs
        (processDays ps sendOk chat origin dest direct maxPrice cfg rest
          (alistSet hist (rdKey origin dest day) (priceKey (pyMinBy priceKey o os)))
          (alistSet st chat
            { cfg with last_sent := some (alistSet hist (rdKey origin dest day)
                (priceKey (pyMinBy priceKey o os))) })).events, ?_⟩
      simp [fetchReqs, List.filterMap_cons, List.filterMap_append]

theorem cfgSameExceptLastSent_refl (cfg : Cfg) : cfgSameExceptLastSent cfg cfg :=
  ⟨rfl, rfl, rfl, rfl, rfl, rfl, rfl, rfl⟩

/-! ### Concrete fixtures -/

/-- A fully configured, eligible subscription over the single day 2026-02-01. -/
def cfgW : Cfg :=
  { origin := some "SVO"
    dest := some "HKT"
    date_from := some "2026-02-01"
    date_to := some "2026-02-01"
    max_price := some 60000
    direct := some false
    one_way := some true
    enabled := some true
    last_sent := some [] }

/-- `cfgW` after the 55000 notification was recorded. -/
def cfgW2 : Cfg := { cfgW with last_sent := some [("SVO-HKT-2026-02-01", 55000)] }

/-- A freshly created, disabled subscription (as `/start` stores it for `B`). -/
def cfgB0 : Cfg := { enabled := some false }

def offerW : Offer := { price := some 55000, transfers := some 0, link := none }

def tieA : Offer := { price := some 55000, transfers := some 0, link := some "/a" }

def tieB : Offer := { price := some 55000, transfers := some 1, link := some "/b" }

def psW : String → Request → Except Unit (List Offer) := fun _ _ => Except.ok [offerW]

def psTie : String → Request → Except Unit (List Offer) := fun _ _ => Except.ok [tieA, tieB]

/-- A price source that raises for subscriber "A" and answers normally otherwise. -/
def psFaultW : String → Request → Except Unit (List Offer) := fun c r =>
  if c = "A" then Except.error () else psW c r

def skW : String → Bool := fun _ => true

def snapW : StateMap := [("A", cfgW), ("B", cfgW)]

def snapC : StateMap := [("A", cfgW)]

/-- What the store holds at write time in the concurrent-writer scenario: a
second writer added subscriber "B" after the cycle loaded its snapshot. -/
def storeAtWriteC : StateMap := [("A", cfgW), ("B", cfgB0)]

/-- The state the scheduler actually writes in that scenario. -/
def stWrittenC : StateMap := [("A", cfgW2)]

theorem cfgW_wf : WellFormedCfg cfgW := by
  refine ⟨fun s hs => ?_, fun s hs => ?_, fun p hp => ?_⟩
  · have h2 : cfgW.date_from = some "2026-02-01" := rfl
    rw [h2] at hs
    rw [← Option.some.inj hs]
    exact ⟨⟨2026, 2, 1⟩, by decide⟩
  · have h2 : cfgW.date_to = some "2026-02-01" := rfl
    rw [h2] at hs
    rw [← Option.some.inj hs]
    exact ⟨⟨2026, 2, 1⟩, by decide⟩
  · have h2 : cfgW.max_price = some 60000 := rfl
    rw [h2] at hp
    rw [← Option.some.inj hp]
    decide

theorem cfgEmpty_wf : WellFormedCfg {} :=
  ⟨fun s hs => Option.noConfusion hs, fun s hs => Option.noConfusion hs,
    fun p hp => Option.noConfusion hp⟩

/-! ### The claims -/

/-- C1: the per-day decision realized at bot.py lines 119-126: `shouldNotify`
is true iff `observedPrice ≤ maxPrice` and (the key is not in the history or
`observedPrice < history[key]`); `observedPrice = maxPrice` notifies
(inclusive threshold) while `observedPrice = maxPrice + 1` never does; on
notify the new history sets `history[key] := observedPrice`, otherwise the
history is unchanged; and the day loop emits a send exactly when `evaluate`
says so. -/
theorem dedup_rule (key : String) (p m : Int) (h : List (String × Int)) :
    ((evaluate key p m h).1 = true ↔
      (p ≤ m ∧ (alistGet h key = none ∨
        ∃ prev, alistGet h key = some prev ∧ p < prev))) ∧
    ((evaluate key p m h).1 = true → (evaluate key p m h).2 = alistSet h key p) ∧
    ((evaluate key p m h).1 = false → (evaluate key p m h).2 = h) ∧
    (alistGet h key = none → (evaluate key m m h).1 = true) ∧
    ((evaluate key (m + 1) m h).1 = false) ∧
    (∀ ps sendOk chat origin dest direct cfg day hist st o os,
      ps chat (dayReq origin dest direct day) = Except.ok (o :: os) →
      ((processDay ps sendOk chat origin dest direct m cfg day hist st).events.any
          (fun e => isSend e)) =
        (evaluate (rdKey origin dest day) (priceKey (pyMinBy priceKey o os)) m hist).1) := by
  refine ⟨evaluate_true_iff key p m h, fun hf => evaluate_fired_hist hf,
    fun hf => evaluate_not_fired_hist hf, fun hget => ?_, ?_, ?_⟩
  · simp [evaluate, hget]
  · have hnle : ¬(m + 1 ≤ m) := by omega
    simp [evaluate, hnle]
  · intro ps sendOk chat origin dest direct cfg day hist st o os hok
    exact processDay_send_iff ps sendOk chat origin dest direct m cfg day hist st o os hok

/-- C1 witness: concrete instances of the dedup rule. -/
theorem dedup_rule_witness :
    (evaluate "k" 5 10 [("k", 7)]).2 = alistSet [("k", 7)] "k" 5 ∧
    (evaluate "k" 10 10 []).1 = true ∧
    (evaluate "k" 11 10 []).1 = false ∧
    ((processDay psW skW "1" "SVO" "HKT" false 60000 cfgW ⟨2026, 2, 1⟩ [] []).events.any
        (fun e => isSend e)) =
      (evaluate (rdKey "SVO" "HKT" ⟨2026, 2, 1⟩) (priceKey (pyMinBy priceKey offerW []))
        60000 []).1 :=
  ⟨(dedup_rule "k" 5 10 [("k", 7)]).2.1 (by decide),
    (dedup_rule "k" 10 10 []).2.2.2.1 (by decide),
    (dedup_rule "k" 11 10 []).2.2.2.2.1,
    (dedup_rule "k" 0 60000 []).2.2.2.2.2 psW skW "1" "SVO" "HKT" false cfgW ⟨2026, 2, 1⟩
      [] [] offerW [] rfl⟩

/-- C2: for a fixed route-date key the stored notified price only ever
decreases: a notification fires only for a price strictly below the stored one;
re-evaluating the same price against the history a notifying call produced
yields `shouldNotify = false`; and over any sequence of observed prices the
notified prices are strictly decreasing. -/
theorem notified_monotonic (key : String) (p m : Int) (h : List (String × Int)) :
    (∀ prev, alistGet h key = some prev → (evaluate key p m h).1 = true → p < prev) ∧
    ((evaluate key p m h).1 = true →
      (evaluate key p m (evaluate key p m h).2).1 = false) ∧
    (∀ prev v, alistGet h key = some prev →
      alistGet (evaluate key p m h).2 key = some v → v ≤ prev) ∧
    (∀ prices, List.Chain' (fun a b2 => b2 < a) (evalSeq key m prices h).1) := by
  refine ⟨fun prev hget hf => evaluate_fired_lt prev hget hf, fun hf => ?_, ?_, ?_⟩
  · rw [evaluate_fired_hist hf]
    have hget2 : alistGet (alistSet h key p) key = some p := alistGet_set_self h key p
    by_cases hple : p ≤ m
    · simp [evaluate, hple, hget2]
    · simp [evaluate, hple]
  · intro prev v hget hget2
    cases hf : (evaluate key p m h).1 with
    | true =>
      rw [evaluate_fired_hist hf, alistGet_set_self] at hget2
      have hv := Option.some.inj hget2
      have hlt := evaluate_fired_lt prev hget hf
      omega
    | false =>
      rw [evaluate_not_fired_hist hf, hget] at hget2
      have hv := Option.some.inj hget2
      omega
  · intro prices
    exact (evalSeq_chain key m prices h).1

/-- C2 witness: 55000 notifies against an empty history; the same price
re-evaluated against the resulting history does not. -/
theorem notified_monotonic_witness :
    (evaluate "k" 55000 60000 (evaluate "k" 55000 60000 []).2).1 = false ∧
    List.Chain' (fun a b2 => b2 < a) (evalSeq "k" 60000 [55000, 70000, 50000, 55000] []).1 :=
  ⟨(notified_monotonic "k" 55000 60000 []).2.1 (by decide),
    (notified_monotonic "k" 55000 60000 []).2.2.2 [55000, 70000, 50000, 55000]⟩

/-- C3: a subscription is eligible for checking iff it is enabled, has
`dateFrom`, `dateTo`, `maxPrice` all set and `dateFrom ≤ dateTo`; an
ineligible subscription (disabled, a field unset, or `dateFrom > dateTo`)
produces no effect whatsoever for a full pass — no price-API call, no
notification, no state change — while an eligible one issues at least one
price-API call. -/
theorem eligibility_gating (ps : String → Request → Except Unit (List Offer))
    (sendOk : String → Bool) (chat : String) (cfg : Cfg) (st : StateMap)
    (hwf : WellFormedCfg cfg) :
    (eligibleSpec cfg = false → processSubscriber ps sendOk chat cfg st = ([], st)) ∧
    (eligibleSpec cfg = true →
      ∃ q t, fetchReqs (processSubscriber ps sendOk chat cfg st).1 = q :: t) := by
  constructor
  · intro hel
    by_cases hen : cfg.enabled.getD false = true
    · cases hdf : cfg.date_from with
      | none => exact processSubscriber_skip ps sendOk chat cfg st (by simp [hdf, truthyStr])
      | some s1 =>
        obtain ⟨dd1, hp1⟩ := hwf.1 s1 hdf
        cases hdt : cfg.date_to with
        | none => exact processSubscriber_skip ps sendOk chat cfg st (by simp [hdt, truthyStr])
        | some s2 =>
          obtain ⟨dd2, hp2⟩ := hwf.2.1 s2 hdt
          cases hmp : cfg.max_price with
          | none =>
            exact processSubscriber_skip ps sendOk chat cfg st (by simp [hmp, truthyInt])
          | some mp =>
            have hmp0 : mp ≠ 0 := ne_of_gt (hwf.2.2 mp hmp)
            have hle : dateLe dd1 dd2 = false := by
              simp only [eligibleSpec, hen, hdf, hdt, hmp, Option.isSome_some,
                Option.some_bind, hp1, hp2, Bool.true_and, Bool.and_true] at hel
              exact hel
            rw [processSubscriber_run ps sendOk chat cfg st hen hdf hdt hmp hmp0 hp1 hp2]
            rw [date_range_eq_nil hle]
            rfl
    · have hen2 : cfg.enabled.getD false = false := by
        cases he : cfg.enabled.getD false
        · rfl
        · exact absurd he hen
      exact processSubscriber_skip ps sendOk chat cfg st (by simp [hen2])
  · intro hel
    cases hdf : cfg.date_from with
    | none => simp [eligibleSpec, hdf] at hel
    | some s1 =>
      cases hdt : cfg.date_to with
      | none => simp [eligibleSpec, hdt] at hel
      | some s2 =>
        cases hmp : cfg.max_price with
        | none => simp [eligibleSpec, hmp] at hel
        | some mp =>
          obtain ⟨dd1, hp1⟩ := hwf.1 s1 hdf
          obtain ⟨dd2, hp2⟩ := hwf.2.1 s2 hdt
          have hmp0 : mp ≠ 0 := ne_of_gt (hwf.2.2 mp hmp)
          have hen : cfg.enabled.getD false = true := by
            cases he : cfg.enabled.getD false
            · simp only [eligibleSpec, he, Bool.false_and] at hel
              exact absurd hel (by simp)
            · rfl
          have hle : dateLe dd1 dd2 = true := by
            simp only [eligibleSpec, hen, hdf, hdt, hmp, Option.isSome_some,
              Option.some_bind, hp1, hp2, Bool.true_and, Bool.and_true] at hel
            exact hel
          rw [processSubscriber_run ps sendOk chat cfg st hen hdf hdt hmp hmp0 hp1 hp2]
          obtain ⟨t2, ht2⟩ := date_range_cons (parse_ymd_valid hp1) (parse_ymd_valid hp2) hle
          rw [ht2]
          obtain ⟨t3, ht3⟩ := processDays_fetch_cons ps sendOk chat
            (cfg.origin.getD DEFAULT_ORIGIN) (cfg.dest.getD DEFAULT_DEST)
            (cfg.direct.getD false) mp cfg dd1 t2 (cfg.last_sent.getD []) st
          exact ⟨_, t3, ht3⟩

/-- C3 witness: a blank subscription is skipped with no effect; the eligible
`cfgW` issues a price-API call. -/
theorem eligibility_gating_witness :
    processSubscriber psW skW "1" ({} : Cfg) [] = ([], []) ∧
    (∃ q t, fetchReqs (processSubscriber psW skW "1" cfgW []).1 = q :: t) :=
  ⟨(eligibility_gating psW skW "1" {} [] cfgEmpty_wf).1 (by decide),
    (eligibility_gating psW skW "1" cfgW [] cfgW_wf).2 (by decide)⟩

/-- C4: subscriber isolation — the price-API calls and notifications a
subscriber `b` receives in a cycle are unchanged under any change to the
other subscribers' price-source behavior (in particular an injected fault
while processing a subscriber processed earlier in the same cycle). -/
theorem subscriber_isolation (ps ps2 : String → Request → Except Unit (List Offer))
    (sendOk : String → Bool) (snap : StateMap) (b : String) (hb : ps b = ps2 b) :
    sendsFor b (runCycle ps sendOk snap).1 = sendsFor b (runCycle ps2 sendOk snap).1 ∧
    fetchesFor b (runCycle ps sendOk snap).1 = fetchesFor b (runCycle ps2 sendOk snap).1 :=
  runCycleAux_isolated sendOk b hb snap snap snap

/-- C4 witness: with a fault injected for subscriber "A", subscriber "B"
(processed later in the same cycle) is still checked and notified exactly as
in the fault-free run — and it does get notified. -/
theorem subscriber_isolation_witness :
    (sendsFor "B" (runCycle psW skW snapW).1 = sendsFor "B" (runCycle psFaultW skW snapW).1 ∧
      fetchesFor "B" (runCycle psW skW snapW).1 =
        fetchesFor "B" (runCycle psFaultW skW snapW).1) ∧
    sendsFor "B" (runCycle psFaultW skW snapW).1 ≠ [] ∧
    sendsFor "A" (runCycle psFaultW skW snapW).1 = [] :=
  ⟨subscriber_isolation psW psFaultW skW snapW "B"
      (by funext r; simp [psFaultW]),
    by decide, by decide⟩

/-- C5: in every cycle trace, each notification send is immediately preceded
by the store write that persists the updated mapping; the store write never
happens after the send. -/
theorem persist_before_send (ps : String → Request → Except Unit (List Offer))
    (sendOk : String → Bool) (snap : StateMap) :
    SavedBeforeSent (runCycle ps sendOk snap).1 :=
  runCycleAux_savedBeforeSent ps sendOk snap snap

/-- C5 witness: the property at a concrete run that does notify. -/
theorem persist_before_send_witness :
    SavedBeforeSent (runCycle psW skW snapC).1 ∧
    (runCycle psW skW snapC).1.countP (fun e => isSend e) = 1 :=
  ⟨persist_before_send psW skW snapC, by decide⟩

/-- C9: every price-API request the scheduler issues is one-way with no
return date, for every subscription — including those with `oneWay = false`;
round-trip pricing is never queried. -/
theorem one_way_only (ps : String → Request → Except Unit (List Offer))
    (sendOk : String → Bool) (snap : StateMap) (c : String) (r : Request)
    (hmem : Event.fetch c r ∈ (runCycle ps sendOk snap).1) :
    r.one_way = "true" ∧ r.return_at = none := by
  obtain ⟨o2, d2, dir, day, hr⟩ := runCycleAux_fetch_shape ps sendOk snap snap c r hmem
  rw [hr]
  exact dayReq_one_way o2 d2 dir day

/-- C9 witness: the request issued for a round-trip-configured subscription
(`oneWay = false`) is still one-way with no return date. -/
theorem one_way_only_witness :
    (dayReq "SVO" "HKT" false ⟨2026, 2, 1⟩).one_way = "true" ∧
    (dayReq "SVO" "HKT" false ⟨2026, 2, 1⟩).return_at = none :=
  one_way_only psW skW [("A", { cfgW with one_way := some false })] "A"
    (dayReq "SVO" "HKT" false ⟨2026, 2, 1⟩) (by decide)

/-- Modelled from the spec: the persistence §4.4 step 5 describes — re-merge
this subscriber's updated configuration into whatever the config store
currently holds at the time of the write.  The part missing from the source:
`checker_loop` never re-reads the store between the cycle-start `load_state()`
(line 85) and the `save_state(state)` at line 128, so no definition of the
source realizes this read-at-write-time merge. -/
def specMergeWrite (currentStore : StateMap) (chat : String) (cfg2 : Cfg) : StateMap :=
  alistSet currentStore chat cfg2

/-- C6 counterexample: in a run over the snapshot `[("A", cfgW)]`, while the
store meanwhile holds subscriber "B" added by a concurrent writer, the state
the scheduler actually writes omits "B" — it is not the spec's re-merge into
the store's current contents, so the concurrent update is lost. -/
theorem snapshot_write_loses_concurrent :
    savePayloads (runCycle psW skW snapC).1 = [stWrittenC] ∧
    alistGet stWrittenC "B" = none ∧
    alistGet (specMergeWrite storeAtWriteC "A" cfgW2) "B" = some cfgB0 ∧
    stWrittenC ≠ specMergeWrite storeAtWriteC "A" cfgW2 := by
  refine ⟨by decide, by decide, by decide, by decide⟩

/-- C6 (amended): every store write a cycle performs is derived from the
cycle-start snapshot alone — it holds exactly the snapshot's keys, each entry
differing from the snapshot's at most in its notification history; entries a
concurrent writer added after the snapshot was loaded are absent from the
write (last-writer-wins, as §5 concedes). -/
theorem cycle_write_from_snapshot (ps : String → Request → Except Unit (List Offer))
    (sendOk : String → Bool) (snap : StateMap)
    (hnd : (snap.map Prod.fst).Nodup) :
    ∀ stt, Event.save stt ∈ (runCycle ps sendOk snap).1 → SnapDerived snap stt := by
  intro stt hmem
  exact (runCycleAux_snapDerived ps sendOk snap snap snap
    (alistGet_of_nodup snap hnd)
    ⟨fun k hk => hk, fun k c0 hk => ⟨c0, hk, cfgSameExceptLastSent_refl c0⟩⟩).2 stt hmem

/-- C6 witness: the write of the concrete run is snapshot-derived. -/
theorem cycle_write_from_snapshot_witness : SnapDerived snapC stWrittenC :=
  cycle_write_from_snapshot psW skW snapC (by decide) stWrittenC (by decide)

/-- C7: for an eligible subscription processed with a well-behaved price
source and notifier, the scheduler issues exactly one price-API request per
calendar day of the inclusive range `[dateFrom, dateTo]`, in ascending date
order — the request list is exactly the day list mapped through the request
builder, the day list holds exactly the valid days between the bounds, and it
is strictly ascending; a day whose query returns no offers has no side effect
(no history change, no store write, no notification) before the loop moves on. -/
theorem day_iteration (ps : String → Request → Except Unit (List Offer))
    (sendOk : String → Bool) (chat : String) (cfg : Cfg) (st : StateMap)
    {s1 s2 : String} {d1 d2 : Date} {mp : Int}
    (hen : cfg.enabled.getD false = true) (hdf : cfg.date_from = some s1)
    (hdt : cfg.date_to = some s2) (hmp : cfg.max_price = some mp) (hmp0 : mp ≠ 0)
    (h1 : parse_ymd s1 = some d1) (h2 : parse_ymd s2 = some d2)
    (hps : ∀ q, ps chat q ≠ Except.error ()) (hsend : sendOk chat = true) :
    fetchReqs (processSubscriber ps sendOk chat cfg st).1 =
      (date_range d1 d2).map
        (dayReq (cfg.origin.getD DEFAULT_ORIGIN) (cfg.dest.getD DEFAULT_DEST)
          (cfg.direct.getD false)) ∧
    (∀ x, x ∈ date_range d1 d2 ↔
      (validDate x = true ∧ dateLe d1 x = true ∧ dateLe x d2 = true)) ∧
    List.Chain' (fun a b2 => dateLt a b2 = true) (date_range d1 d2) ∧
    (∀ day hist st2,
      ps chat (dayReq (cfg.origin.getD DEFAULT_ORIGIN) (cfg.dest.getD DEFAULT_DEST)
        (cfg.direct.getD false) day) = Except.ok [] →
      processDay ps sendOk chat (cfg.origin.getD DEFAULT_ORIGIN)
          (cfg.dest.getD DEFAULT_DEST) (cfg.direct.getD false) mp cfg day hist st2 =
        ⟨[Event.fetch chat (dayReq (cfg.origin.getD DEFAULT_ORIGIN)
            (cfg.dest.getD DEFAULT_DEST) (cfg.direct.getD false) day)],
          hist, st2, false⟩) := by
  rw [processSubscriber_run ps sendOk chat cfg st hen hdf hdt hmp hmp0 h1 h2]
  refine ⟨?_, ?_, ?_, ?_⟩
  · exact (processDays_fetchReqs ps sendOk chat _ _ _ mp cfg hps hsend (date_range d1 d2)
      (cfg.last_sent.getD []) st).1
  · exact fun x => date_range_mem (parse_ymd_valid h1) (parse_ymd_valid h2)
  · exact date_range_chain (parse_ymd_valid h1)
  · intro day hist st2 hempty
    exact processDay_empty ps sendOk chat _ _ _ mp cfg day hist st2 hempty

/-- C7 witness: the day iteration over `cfgW`'s single-day range. -/
theorem day_iteration_witness :
    fetchReqs (processSubscriber psW skW "1" cfgW []).1 =
      (date_range ⟨2026, 2, 1⟩ ⟨2026, 2, 1⟩).map
        (dayReq (cfgW.origin.getD DEFAULT_ORIGIN) (cfgW.dest.getD DEFAULT_DEST)
          (cfgW.direct.getD false)) ∧
    (∀ x, x ∈ date_range ⟨2026, 2, 1⟩ ⟨2026, 2, 1⟩ ↔
      (validDate x = true ∧ dateLe ⟨2026, 2, 1⟩ x = true ∧
        dateLe x ⟨2026, 2, 1⟩ = true)) ∧
    List.Chain' (fun a b2 => dateLt a b2 = true) (date_range ⟨2026, 2, 1⟩ ⟨2026, 2, 1⟩) ∧
    (∀ day hist st2,
      psW "1" (dayReq (cfgW.origin.getD DEFAULT_ORIGIN) (cfgW.dest.getD DEFAULT_DEST)
        (cfgW.direct.getD false) day) = Except.ok [] →
      processDay psW skW "1" (cfgW.origin.getD DEFAULT_ORIGIN)
          (cfgW.dest.getD DEFAULT_DEST) (cfgW.direct.getD false) 60000 cfgW day hist st2 =
        ⟨[Event.fetch "1" (dayReq (cfgW.origin.getD DEFAULT_ORIGIN)
            (cfgW.dest.getD DEFAULT_DEST) (cfgW.direct.getD false) day)],
          hist, st2, false⟩) :=
  day_iteration psW skW "1" cfgW [] (by decide) rfl rfl rfl (by decide) (by decide)
    (by decide) (fun q => by simp [psW]) rfl

/-- C8: the day's representative offer is the one of minimum price, with ties
broken by source order (the first minimum encountered wins): it is a member of
the offer list, no offer is cheaper, every offer before it is strictly more
expensive — and any notification the day emits carries exactly that offer's
price, transfer count and link. -/
theorem best_offer_selection (o : Offer) (os : List Offer)
    (ps : String → Request → Except Unit (List Offer)) (sendOk : String → Bool)
    (chat origin dest : String) (direct : Bool) (maxPrice : Int) (cfg : Cfg)
    (day : Date) (hist : List (String × Int)) (st : StateMap)
    (hok : ps chat (dayReq origin dest direct day) = Except.ok (o :: os)) :
    pyMinBy priceKey o os ∈ o :: os ∧
    (∀ x ∈ o :: os, priceKey (pyMinBy priceKey o os) ≤ priceKey x) ∧
    (∃ l1 l2, o :: os = l1 ++ pyMinBy priceKey o os :: l2 ∧
      ∀ x ∈ l1, priceKey (pyMinBy priceKey o os) < priceKey x) ∧
    (∀ e ∈ (processDay ps sendOk chat origin dest direct maxPrice cfg day hist st).events,
      isSend e = true →
      e = Event.send chat origin dest (strftimeYmd day)
        (priceKey (pyMinBy priceKey o os)) (pyMinBy priceKey o os).transfers
        (linkFor (pyMinBy priceKey o os) origin dest (strftimeYmd day))) := by
  obtain ⟨hmem, hmin, hdec⟩ := pyMinBy_spec priceKey os o
  refine ⟨hmem, hmin, hdec, ?_⟩
  intro e hememem hsend
  rcases processDay_cases ps sendOk chat origin dest direct maxPrice cfg day hist st with
    ⟨ab, _, heq⟩ | ⟨o3, os3, hok3, _, heq⟩
  · rw [heq] at hememem
    simp only [List.mem_singleton] at hememem
    rw [hememem] at hsend
    exact absurd hsend (by simp [isSend])
  · rw [hok] at hok3
    injection hok3 with hlist
    injection hlist with ho hos
    rw [← ho, ← hos] at heq
    rw [heq] at hememem
    simp only [List.mem_cons, List.not_mem_nil, or_false] at hememem
    rcases hememem with he | he | he
    · rw [he] at hsend
      exact absurd hsend (by simp [isSend])
    · rw [he] at hsend
      exact absurd hsend (by simp [isSend])
    · exact he

/-- C8 witness: two offers tied at the lowest price — the first one in source
order is selected, and its transfer count and link are the ones used. -/
theorem best_offer_selection_witness :
    (pyMinBy priceKey tieA [tieB] ∈ tieA :: [tieB] ∧
      (∀ x ∈ tieA :: [tieB], priceKey (pyMinBy priceKey tieA [tieB]) ≤ priceKey x) ∧
      (∃ l1 l2, tieA :: [tieB] = l1 ++ pyMinBy priceKey tieA [tieB] :: l2 ∧
        ∀ x ∈ l1, priceKey (pyMinBy priceKey tieA [tieB]) < priceKey x) ∧
      (∀ e ∈ (processDay psTie skW "1" "SVO" "HKT" false 60000 cfgW ⟨2026, 2, 1⟩
          [] []).events,
        isSend e = true →
        e = Event.send "1" "SVO" "HKT" (strftimeYmd ⟨2026, 2, 1⟩)
          (priceKey (pyMinBy priceKey tieA [tieB])) (pyMinBy priceKey tieA [tieB]).transfers
          (linkFor (pyMinBy priceKey tieA [tieB]) "SVO" "HKT"
            (strftimeYmd ⟨2026, 2, 1⟩)))) ∧
    pyMinBy priceKey tieA [tieB] = tieA :=
  ⟨best_offer_selection tieA [tieB] psTie skW "1" "SVO" "HKT" false 60000 cfgW ⟨2026, 2, 1⟩
      [] [] rfl, by decide⟩

def st0 : StateMap := [("A", cfgW), ("B", cfgB0)]

def stt0 : StateMap := [("A", cfgW2), ("B", cfgB0)]

/-- C10: during one subscriber's processing the store is written exactly once
per notification (write counts and send counts agree, every write is
immediately followed by its send and every send immediately preceded by its
write — so no positive decision means no write at all), and every written
state changes nothing besides this subscriber's entry, whose fields other than
the notification history are untouched. -/
theorem store_write_frame (ps : String → Request → Except Unit (List Offer))
    (sendOk : String → Bool) (chat : String) (cfg : Cfg) (st : StateMap) :
    ((processSubscriber ps sendOk chat cfg st).1.countP (fun e => isSave e) =
      (processSubscriber ps sendOk chat cfg st).1.countP (fun e => isSend e)) ∧
    SaveImmediatelySent (processSubscriber ps sendOk chat cfg st).1 ∧
    SavedBeforeSent (processSubscriber ps sendOk chat cfg st).1 ∧
    (∀ stt, Event.save stt ∈ (processSubscriber ps sendOk chat cfg st).1 →
      (∀ k, k ≠ chat → alistGet stt k = alistGet st k) ∧
      ∃ h2, alistGet stt chat = some { cfg with last_sent := some h2 }) :=
  ⟨processSubscriber_counts ps sendOk chat cfg st,
    processSubscriber_saveImmediatelySent ps sendOk chat cfg st,
    processSubscriber_savedBeforeSent ps sendOk chat cfg st,
    (processSubscriber_frame ps sendOk chat cfg st).2⟩

/-- C10 witness: the concrete run writes once, leaves "B"'s entry untouched,
and only updates "A"'s notification history. -/
theorem store_write_frame_witness :
    ((processSubscriber psW skW "A" cfgW st0).1.countP (fun e => isSave e) =
      (processSubscriber psW skW "A" cfgW st0).1.countP (fun e => isSend e)) ∧
    alistGet stt0 "B" = alistGet st0 "B" ∧
    (∃ h2, alistGet stt0 "A" = some { cfgW with last_sent := some h2 }) :=
  ⟨(store_write_frame psW skW "A" cfgW st0).1,
    ((store_write_frame psW skW "A" cfgW st0).2.2.2 stt0 (by decide)).1 "B" (by decide),
    ((store_write_frame psW skW "A" cfgW st0).2.2.2 stt0 (by decide)).2⟩
